import Mathlib

/-!
# Verification of Kosaraju's SCC algorithm (kosaraju.cpp)

Shallow embedding of `scc::KosarajuSCC` from `src/scc_formal_verify/kosaraju.cpp`.

* A `Graph` is `std::vector<std::vector<int>>`: a list of adjacency lists with
  `int` entries (so out-of-range entries, including negative ones, are
  representable).
* The mutable `std::vector<bool> visited` array is modelled as the
  `Finset Nat` of indices that are `true`; `visited[v] = true` is
  `insert v visited`, and the test `!visited[w]` is `w ∉ visited`.
* The recursive DFS helpers `dfsFirstPass` / `dfsSecondPass` are modelled with
  an explicit fuel parameter bounding the recursion depth (the C++ recursion
  depth is bounded by the number of unvisited nodes, so fuel `n` is always
  enough; this is proved below as the termination property).
* The loop `for (int i = n - 1; i >= 0; --i) { int v = order[i]; ... }` is
  modelled as a fold over `order.reverse` (the first pass fills `order` with
  all of `0..n-1`, proved below, so the two iterations coincide).
-/

namespace scc

/-- `using Graph = std::vector<std::vector<int>>`. -/
abbrev Graph := List (List Int)

/-- `graph[v]`: adjacency list of node `v` (always indexed in range by the
algorithm; out-of-range reads are given the empty list). -/
def adj (g : Graph) (v : Nat) : List Int := g.getD v []

/-- The bounds check `w >= 0 && w < n` guarding every edge use. -/
def inRange (n : Nat) (w : Int) : Prop := 0 ≤ w ∧ w < (n : Int)

instance (n : Nat) (w : Int) : Decidable (inRange n w) := by
  unfold inRange; infer_instance

/-- State of the first pass: the `visited` array and the `order` vector. -/
structure St1 where
  visited : Finset Nat
  order : List Nat
deriving DecidableEq

/-- State of the second pass: the `visited` array and the current `component`
vector. -/
structure St2 where
  visited : Finset Nat
  comp : List Nat
deriving DecidableEq

/-- `KosarajuSCC::dfsFirstPass`: mark `v` visited, recurse into every
in-range unvisited out-neighbor, then append `v` to `order` (post-order).
`fuel` bounds the recursion depth. -/
def dfsFirstPass (g : Graph) : Nat → Nat → St1 → St1
  | 0, _, s => s
  | fuel + 1, v, s =>
    let s1 : St1 := ⟨insert v s.visited, s.order⟩
    let s2 := (adj g v).foldl
      (fun t w =>
        if inRange g.length w ∧ w.toNat ∉ t.visited then
          dfsFirstPass g fuel w.toNat t
        else t) s1
    ⟨s2.visited, s2.order ++ [v]⟩

/-- The neighbor loop of `dfsFirstPass`, as a standalone function. -/
def dfsFirstList (g : Graph) (fuel : Nat) (ws : List Int) (s : St1) : St1 :=
  ws.foldl
    (fun t w =>
      if inRange g.length w ∧ w.toNat ∉ t.visited then
        dfsFirstPass g fuel w.toNat t
      else t) s

/-- `KosarajuSCC::dfsSecondPass`: mark `v` visited, append `v` to the current
component (pre-order), then recurse into every in-range unvisited
out-neighbor of the transpose graph. -/
def dfsSecondPass (t : Graph) : Nat → Nat → St2 → St2
  | 0, _, s => s
  | fuel + 1, v, s =>
    let s1 : St2 := ⟨insert v s.visited, s.comp ++ [v]⟩
    (adj t v).foldl
      (fun u w =>
        if inRange t.length w ∧ w.toNat ∉ u.visited then
          dfsSecondPass t fuel w.toNat u
        else u) s1

/-- The neighbor loop of `dfsSecondPass`, as a standalone function. -/
def dfsSecondList (t : Graph) (fuel : Nat) (ws : List Int) (s : St2) : St2 :=
  ws.foldl
    (fun u w =>
      if inRange t.length w ∧ w.toNat ∉ u.visited then
        dfsSecondPass t fuel w.toNat u
      else u) s

/-- The root loop of the first pass over a list of candidate roots:
`for (v : roots) if (!visited[v]) dfsFirstPass(graph, v, visited, order)`. -/
def firstLoop (g : Graph) (fuel : Nat) (roots : List Nat) (s : St1) : St1 :=
  roots.foldl (fun s v => if v ∉ s.visited then dfsFirstPass g fuel v s else s) s

/-- First phase of `findSCCs`: `for (v = 0; v < n; ++v) if (!visited[v])
dfsFirstPass(...)`, starting from the all-false `visited` array and an empty
`order`. -/
def firstPassFuel (g : Graph) (fuel : Nat) : St1 :=
  firstLoop g fuel (List.range g.length) ⟨∅, []⟩

/-- The first pass with the canonical fuel `n`. -/
def firstPassSt (g : Graph) : St1 := firstPassFuel g g.length

/-- `transpose[w].push_back(v)`, i.e. append `x` to slot `w`. -/
def pushAt (t : Graph) (w : Nat) (x : Int) : Graph :=
  t.set w (t.getD w [] ++ [x])

/-- The transpose construction inside `findSCCs`: start from `Graph
transpose(n)` (n empty slots) and, for `v = 0..n-1` and each `w` in
`graph[v]` with `0 <= w < n`, do `transpose[w].push_back(v)`. -/
def transposeOf (g : Graph) : Graph :=
  (List.range g.length).foldl
    (fun t v =>
      (adj g v).foldl
        (fun t' w => if inRange g.length w then pushAt t' w.toNat (v : Int) else t')
        t)
    (List.replicate g.length [])

/-- One iteration of the second-pass loop body: if `v` is unvisited, run
`dfsSecondPass` from it on a fresh empty component and append the resulting
component to the output. -/
def sccStep (t : Graph) (fuel : Nat) (acc : Finset Nat × List (List Nat)) (v : Nat) :
    Finset Nat × List (List Nat) :=
  if v ∉ acc.1 then
    let s2 := dfsSecondPass t fuel v ⟨acc.1, []⟩
    (s2.visited, acc.2 ++ [s2.comp])
  else acc

/-- The second-pass loop of `findSCCs` over a list of roots, carrying the
`visited` array and the accumulated components. -/
def secondPassFuel (t : Graph) (fuel : Nat) (roots : List Nat)
    (acc : Finset Nat × List (List Nat)) : Finset Nat × List (List Nat) :=
  roots.foldl (sccStep t fuel) acc

/-- `KosarajuSCC::findSCCs`, with the DFS fuel as an explicit parameter. -/
def findSCCsFuel (g : Graph) (fuel : Nat) : List (List Nat) :=
  if g.length = 0 then []
  else
    (secondPassFuel (transposeOf g) fuel ((firstPassFuel g fuel).order.reverse)
      (∅, [])).2

/-- `KosarajuSCC::findSCCs`: empty graph short-circuits; otherwise first pass,
transpose, then the second pass over `order` from its last element to its
first, starting from a fresh all-false `visited` array. Fuel `n` (proved
sufficient below). -/
def findSCCs (g : Graph) : List (List Nat) :=
  if g.length = 0 then []
  else
    (secondPassFuel (transposeOf g) g.length ((firstPassSt g).order.reverse)
      (∅, [])).2

/-- `KosarajuSCC::countSCCs`. -/
def countSCCs (g : Graph) : Nat := (findSCCs g).length

/-! ## Specification-side notions -/

/-- A directed edge of `g` whose target is in range: `v`'s adjacency list has
an entry equal to `w` with `w < n` (as an `Int` entry, hence nonnegative). -/
def Edge (g : Graph) (u w : Nat) : Prop :=
  w < g.length ∧ (w : Int) ∈ adj g u

/-- Reachability via in-range directed edges of `g`. -/
def Reach (g : Graph) : Nat → Nat → Prop := Relation.ReflTransGen (Edge g)

/-- Mutual reachability: `u` and `w` are in the same strongly connected
component. -/
def MutualReach (g : Graph) (u w : Nat) : Prop := Reach g u w ∧ Reach g w u

/-- Reachability from `u` by a path all of whose nodes after `u` avoid the
set `V`. -/
def ReachAvoid (g : Graph) (V : Finset Nat) : Nat → Nat → Prop :=
  Relation.ReflTransGen (fun a b => Edge g a b ∧ b ∉ V)

/-- Fuel sufficiency: at least as much fuel as there are unvisited nodes. -/
def Suff (g : Graph) (fuel : Nat) (V : Finset Nat) : Prop :=
  (Finset.range g.length \ V).card ≤ fuel

/-- `g` with every out-of-range entry removed from its adjacency lists
(same node count). -/
def cleanGraph (g : Graph) : Graph :=
  g.map (fun l => l.filter (fun w => decide (inRange g.length w)))

end scc

/-! ## Basic unfolding equations -/

namespace scc

variable {g t : Graph}

theorem dfsFirstPass_succ_eq (fuel v : Nat) (s : St1) :
    dfsFirstPass g (fuel + 1) v s =
      ⟨(dfsFirstList g fuel (adj g v) ⟨insert v s.visited, s.order⟩).visited,
       (dfsFirstList g fuel (adj g v) ⟨insert v s.visited, s.order⟩).order ++ [v]⟩ := rfl

theorem dfsFirstList_nil_eq (fuel : Nat) (s : St1) :
    dfsFirstList g fuel [] s = s := rfl

theorem dfsFirstList_cons_eq (fuel : Nat) (w : Int) (ws : List Int) (s : St1) :
    dfsFirstList g fuel (w :: ws) s =
      dfsFirstList g fuel ws
        (if inRange g.length w ∧ w.toNat ∉ s.visited then
          dfsFirstPass g fuel w.toNat s else s) := rfl

theorem dfsSecondPass_succ_eq (fuel v : Nat) (s : St2) :
    dfsSecondPass t (fuel + 1) v s =
      dfsSecondList t fuel (adj t v) ⟨insert v s.visited, s.comp ++ [v]⟩ := rfl

theorem dfsSecondList_nil_eq (fuel : Nat) (s : St2) :
    dfsSecondList t fuel [] s = s := rfl

theorem dfsSecondList_cons_eq (fuel : Nat) (w : Int) (ws : List Int) (s : St2) :
    dfsSecondList t fuel (w :: ws) s =
      dfsSecondList t fuel ws
        (if inRange t.length w ∧ w.toNat ∉ s.visited then
          dfsSecondPass t fuel w.toNat s else s) := rfl

/-! ## Monotonicity of `visited` -/

theorem dfsFirstPass_visited_mono :
    ∀ fuel v (s : St1), s.visited ⊆ (dfsFirstPass g fuel v s).visited := by
  intro fuel
  induction fuel with
  | zero => intro v s; exact Finset.Subset.refl _
  | succ f ih =>
    intro v s
    rw [dfsFirstPass_succ_eq]
    have hlist : ∀ (ws : List Int) (u : St1),
        u.visited ⊆ (dfsFirstList g f ws u).visited := by
      intro ws
      induction ws with
      | nil => intro u; exact Finset.Subset.refl _
      | cons w ws ihw =>
        intro u
        rw [dfsFirstList_cons_eq]
        split
        · exact (ih w.toNat u).trans (ihw _)
        · exact ihw u
    exact (Finset.subset_insert v s.visited).trans
      (hlist (adj g v) ⟨insert v s.visited, s.order⟩)

theorem dfsFirstList_visited_mono (fuel : Nat) :
    ∀ (ws : List Int) (s : St1), s.visited ⊆ (dfsFirstList g fuel ws s).visited := by
  intro ws
  induction ws with
  | nil => intro s; exact Finset.Subset.refl _
  | cons w ws ihw =>
    intro s
    rw [dfsFirstList_cons_eq]
    split
    · exact (dfsFirstPass_visited_mono fuel w.toNat s).trans (ihw _)
    · exact ihw s

theorem dfsSecondPass_visited_mono :
    ∀ fuel v (s : St2), s.visited ⊆ (dfsSecondPass t fuel v s).visited := by
  intro fuel
  induction fuel with
  | zero => intro v s; exact Finset.Subset.refl _
  | succ f ih =>
    intro v s
    rw [dfsSecondPass_succ_eq]
    have hlist : ∀ (ws : List Int) (u : St2),
        u.visited ⊆ (dfsSecondList t f ws u).visited := by
      intro ws
      induction ws with
      | nil => intro u; exact Finset.Subset.refl _
      | cons w ws ihw =>
        intro u
        rw [dfsSecondList_cons_eq]
        split
        · exact (ih w.toNat u).trans (ihw _)
        · exact ihw u
    exact (Finset.subset_insert v s.visited).trans
      (hlist (adj t v) ⟨insert v s.visited, s.comp ++ [v]⟩)

theorem dfsSecondList_visited_mono (fuel : Nat) :
    ∀ (ws : List Int) (s : St2), s.visited ⊆ (dfsSecondList t fuel ws s).visited := by
  intro ws
  induction ws with
  | nil => intro s; exact Finset.Subset.refl _
  | cons w ws ihw =>
    intro s
    rw [dfsSecondList_cons_eq]
    split
    · exact (dfsSecondPass_visited_mono fuel w.toNat s).trans (ihw _)
    · exact ihw s

end scc

/-! ## Fuel sufficiency bookkeeping -/

namespace scc

variable {g t : Graph}

theorem Suff.mono {fuel : Nat} {V W : Finset Nat} (hVW : V ⊆ W)
    (h : Suff g fuel V) : Suff g fuel W :=
  le_trans (Finset.card_le_card
    (Finset.sdiff_subset_sdiff (Finset.Subset.refl _) hVW)) h

theorem Suff.one_le {fuel v : Nat} {V : Finset Nat} (h : Suff g fuel V)
    (hv : v < g.length) (hnv : v ∉ V) : 1 ≤ fuel :=
  le_trans (Finset.card_pos.2 ⟨v, Finset.mem_sdiff.2 ⟨Finset.mem_range.2 hv, hnv⟩⟩) h

theorem Suff.insert_of_succ {fuel v : Nat} {V : Finset Nat}
    (h : Suff g (fuel + 1) V) (hv : v < g.length) (hnv : v ∉ V) :
    Suff g fuel (insert v V) := by
  unfold Suff at h ⊢
  have hmem : v ∈ Finset.range g.length \ V :=
    Finset.mem_sdiff.2 ⟨Finset.mem_range.2 hv, hnv⟩
  rw [Finset.sdiff_insert, Finset.card_erase_of_mem hmem]
  omega

/-! ## Roots get marked; visited stays within range -/

theorem dfsFirstPass_marks_root {fuel : Nat} (hf : 1 ≤ fuel) (v : Nat) (s : St1) :
    v ∈ (dfsFirstPass g fuel v s).visited := by
  obtain ⟨f, rfl⟩ : ∃ f, fuel = f + 1 := ⟨fuel - 1, by omega⟩
  rw [dfsFirstPass_succ_eq]
  exact dfsFirstList_visited_mono f (adj g v) ⟨insert v s.visited, s.order⟩
    (Finset.mem_insert_self v s.visited)

theorem dfsSecondPass_marks_root {fuel : Nat} (hf : 1 ≤ fuel) (v : Nat) (s : St2) :
    v ∈ (dfsSecondPass t fuel v s).visited := by
  obtain ⟨f, rfl⟩ : ∃ f, fuel = f + 1 := ⟨fuel - 1, by omega⟩
  rw [dfsSecondPass_succ_eq]
  exact dfsSecondList_visited_mono f (adj t v) ⟨insert v s.visited, s.comp ++ [v]⟩
    (Finset.mem_insert_self v s.visited)

theorem dfsFirstPass_visited_range :
    ∀ fuel v (s : St1), v < g.length →
      (dfsFirstPass g fuel v s).visited ⊆ s.visited ∪ Finset.range g.length := by
  intro fuel
  induction fuel with
  | zero => intro v s _; exact Finset.subset_union_left
  | succ f ih =>
    intro v s hv
    rw [dfsFirstPass_succ_eq]
    have hlist : ∀ (ws : List Int) (u : St1),
        (dfsFirstList g f ws u).visited ⊆ u.visited ∪ Finset.range g.length := by
      intro ws
      induction ws with
      | nil => intro u; exact Finset.subset_union_left
      | cons w ws ihw =>
        intro u
        rw [dfsFirstList_cons_eq]
        split
        · rename_i hcond
          refine (ihw _).trans (Finset.union_subset ?_ Finset.subset_union_right)
          refine (ih w.toNat u ?_).trans ?_
          · have := hcond.1.2
            omega
          · exact Finset.Subset.refl _
        · exact ihw u
    refine (hlist (adj g v) ⟨insert v s.visited, s.order⟩).trans ?_
    intro x hx
    rcases Finset.mem_union.1 hx with hx | hx
    · rcases Finset.mem_insert.1 hx with rfl | hx
      · exact Finset.mem_union_right _ (Finset.mem_range.2 hv)
      · exact Finset.mem_union_left _ hx
    · exact Finset.mem_union_right _ hx

theorem dfsSecondPass_visited_range :
    ∀ fuel v (s : St2), v < t.length →
      (dfsSecondPass t fuel v s).visited ⊆ s.visited ∪ Finset.range t.length := by
  intro fuel
  induction fuel with
  | zero => intro v s _; exact Finset.subset_union_left
  | succ f ih =>
    intro v s hv
    rw [dfsSecondPass_succ_eq]
    have hlist : ∀ (ws : List Int) (u : St2),
        (dfsSecondList t f ws u).visited ⊆ u.visited ∪ Finset.range t.length := by
      intro ws
      induction ws with
      | nil => intro u; exact Finset.subset_union_left
      | cons w ws ihw =>
        intro u
        rw [dfsSecondList_cons_eq]
        split
        · rename_i hcond
          refine (ihw _).trans (Finset.union_subset ?_ Finset.subset_union_right)
          refine (ih w.toNat u ?_).trans (Finset.Subset.refl _)
          have := hcond.1.2
          omega
        · exact ihw u
    refine (hlist (adj t v) ⟨insert v s.visited, s.comp ++ [v]⟩).trans ?_
    intro x hx
    rcases Finset.mem_union.1 hx with hx | hx
    · rcases Finset.mem_insert.1 hx with rfl | hx
      · exact Finset.mem_union_right _ (Finset.mem_range.2 hv)
      · exact Finset.mem_union_left _ hx
    · exact Finset.mem_union_right _ hx

end scc

/-! ## The order / component vectors are append-only -/

namespace scc

variable {g t : Graph}

theorem dfsFirstPass_order_append :
    ∀ fuel v (s : St1), ∃ L, (dfsFirstPass g fuel v s).order = s.order ++ L := by
  intro fuel
  induction fuel with
  | zero => intro v s; exact ⟨[], (List.append_nil _).symm⟩
  | succ f ih =>
    intro v s
    rw [dfsFirstPass_succ_eq]
    have hlist : ∀ (ws : List Int) (u : St1),
        ∃ L, (dfsFirstList g f ws u).order = u.order ++ L := by
      intro ws
      induction ws with
      | nil => intro u; exact ⟨[], (List.append_nil _).symm⟩
      | cons w ws ihw =>
        intro u
        rw [dfsFirstList_cons_eq]
        split
        · obtain ⟨L1, h1⟩ := ih w.toNat u
          obtain ⟨L2, h2⟩ := ihw (dfsFirstPass g f w.toNat u)
          exact ⟨L1 ++ L2, by rw [h2, h1, List.append_assoc]⟩
        · exact ihw u
    obtain ⟨L, hL⟩ := hlist (adj g v) ⟨insert v s.visited, s.order⟩
    exact ⟨L ++ [v], by simp [hL]⟩

theorem dfsFirstList_order_append (fuel : Nat) :
    ∀ (ws : List Int) (s : St1), ∃ L, (dfsFirstList g fuel ws s).order = s.order ++ L := by
  intro ws
  induction ws with
  | nil => intro s; exact ⟨[], (List.append_nil _).symm⟩
  | cons w ws ihw =>
    intro s
    rw [dfsFirstList_cons_eq]
    split
    · obtain ⟨L1, h1⟩ := dfsFirstPass_order_append fuel w.toNat s
      obtain ⟨L2, h2⟩ := ihw (dfsFirstPass g fuel w.toNat s)
      exact ⟨L1 ++ L2, by rw [h2, h1, List.append_assoc]⟩
    · exact ihw s

theorem dfsSecondPass_comp_append :
    ∀ fuel v (s : St2), ∃ L, (dfsSecondPass t fuel v s).comp = s.comp ++ L := by
  intro fuel
  induction fuel with
  | zero => intro v s; exact ⟨[], (List.append_nil _).symm⟩
  | succ f ih =>
    intro v s
    rw [dfsSecondPass_succ_eq]
    have hlist : ∀ (ws : List Int) (u : St2),
        ∃ L, (dfsSecondList t f ws u).comp = u.comp ++ L := by
      intro ws
      induction ws with
      | nil => intro u; exact ⟨[], (List.append_nil _).symm⟩
      | cons w ws ihw =>
        intro u
        rw [dfsSecondList_cons_eq]
        split
        · obtain ⟨L1, h1⟩ := ih w.toNat u
          obtain ⟨L2, h2⟩ := ihw (dfsSecondPass t f w.toNat u)
          exact ⟨L1 ++ L2, by rw [h2, h1, List.append_assoc]⟩
        · exact ihw u
    obtain ⟨L, hL⟩ := hlist (adj t v) ⟨insert v s.visited, s.comp ++ [v]⟩
    exact ⟨v :: L, by simp [hL]⟩

theorem dfsSecondList_comp_append (fuel : Nat) :
    ∀ (ws : List Int) (s : St2), ∃ L, (dfsSecondList t fuel ws s).comp = s.comp ++ L := by
  intro ws
  induction ws with
  | nil => intro s; exact ⟨[], (List.append_nil _).symm⟩
  | cons w ws ihw =>
    intro s
    rw [dfsSecondList_cons_eq]
    split
    · obtain ⟨L1, h1⟩ := dfsSecondPass_comp_append fuel w.toNat s
      obtain ⟨L2, h2⟩ := ihw (dfsSecondPass t fuel w.toNat s)
      exact ⟨L1 ++ L2, by rw [h2, h1, List.append_assoc]⟩
    · exact ihw s

end scc

/-! ## Delta lemmas: newly appended nodes = newly visited nodes -/

namespace scc

variable {g t : Graph}

/-- Loop version of the first-pass delta lemma, assuming it for the calls at
the given fuel. -/
theorem dfsFirstList_delta (fuel : Nat)
    (Hdfs : ∀ v (s : St1), v ∉ s.visited →
      ∃ L, (dfsFirstPass g fuel v s).order = s.order ++ L ∧ L.Nodup ∧
        ∀ x, x ∈ L ↔ (x ∈ (dfsFirstPass g fuel v s).visited ∧ x ∉ s.visited)) :
    ∀ (ws : List Int) (s : St1),
      ∃ L, (dfsFirstList g fuel ws s).order = s.order ++ L ∧ L.Nodup ∧
        ∀ x, x ∈ L ↔ (x ∈ (dfsFirstList g fuel ws s).visited ∧ x ∉ s.visited) := by
  intro ws
  induction ws with
  | nil =>
    intro s
    exact ⟨[], (List.append_nil _).symm, List.nodup_nil, by simp [dfsFirstList_nil_eq]⟩
  | cons w ws ihw =>
    intro s
    rw [dfsFirstList_cons_eq]
    by_cases hc : inRange g.length w ∧ w.toNat ∉ s.visited
    · rw [if_pos hc]
      set s' := dfsFirstPass g fuel w.toNat s with hs'
      obtain ⟨L1, h1o, h1n, h1m⟩ := Hdfs w.toNat s hc.2
      obtain ⟨L2, h2o, h2n, h2m⟩ := ihw s'
      have hmono1 : s.visited ⊆ s'.visited := dfsFirstPass_visited_mono fuel w.toNat s
      have hmono2 : s'.visited ⊆ (dfsFirstList g fuel ws s').visited :=
        dfsFirstList_visited_mono fuel ws s'
      refine ⟨L1 ++ L2, by rw [h2o, h1o, List.append_assoc], ?_, ?_⟩
      · rw [List.nodup_append]
        refine ⟨h1n, h2n, ?_⟩
        intro x hx1 hx2
        exact ((h2m x).1 hx2).2 ((h1m x).1 hx1).1
      · intro x
        rw [List.mem_append, h1m, h2m]
        constructor
        · rintro (⟨hv, hnv⟩ | ⟨hv, hnv⟩)
          · exact ⟨hmono2 hv, hnv⟩
          · exact ⟨hv, fun hx => hnv (hmono1 hx)⟩
        · rintro ⟨hv, hnv⟩
          by_cases hx' : x ∈ s'.visited
          · exact Or.inl ⟨hx', hnv⟩
          · exact Or.inr ⟨hv, hx'⟩
    · rw [if_neg hc]
      exact ihw s

/-- First-pass delta lemma: calling `dfsFirstPass` on an unvisited node
appends to `order` exactly the newly visited nodes, each once. -/
theorem dfsFirstPass_delta :
    ∀ fuel v (s : St1), v ∉ s.visited →
      ∃ L, (dfsFirstPass g fuel v s).order = s.order ++ L ∧ L.Nodup ∧
        ∀ x, x ∈ L ↔ (x ∈ (dfsFirstPass g fuel v s).visited ∧ x ∉ s.visited) := by
  intro fuel
  induction fuel with
  | zero =>
    intro v s _
    exact ⟨[], (List.append_nil _).symm, List.nodup_nil, by simp [dfsFirstPass]⟩
  | succ f ih =>
    intro v s hv
    have hsucc := dfsFirstPass_succ_eq (g := g) f v s
    set s1 : St1 := ⟨insert v s.visited, s.order⟩ with hs1
    obtain ⟨L1, h1o, h1n, h1m⟩ := dfsFirstList_delta f ih (adj g v) s1
    have hvL1 : v ∉ L1 := fun hvem =>
      ((h1m v).1 hvem).2 (Finset.mem_insert_self v s.visited)
    have hvisv : v ∈ (dfsFirstList g f (adj g v) s1).visited :=
      dfsFirstList_visited_mono f (adj g v) s1 (Finset.mem_insert_self v s.visited)
    refine ⟨L1 ++ [v], ?_, ?_, ?_⟩
    · rw [hsucc]
      show (dfsFirstList g f (adj g v) s1).order ++ [v] = s.order ++ (L1 ++ [v])
      rw [h1o]
      show s1.order ++ L1 ++ [v] = s.order ++ (L1 ++ [v])
      simp [hs1]
    · rw [List.nodup_append]
      exact ⟨h1n, List.nodup_singleton v,
        fun x hx1 hx2 => by
          rw [List.mem_singleton] at hx2
          exact hvL1 (hx2 ▸ hx1)⟩
    · intro x
      rw [hsucc]
      show x ∈ L1 ++ [v] ↔
        x ∈ (dfsFirstList g f (adj g v) s1).visited ∧ x ∉ s.visited
      rw [List.mem_append, List.mem_singleton, h1m]
      constructor
      · rintro (⟨hvis, hnv⟩ | rfl)
        · refine ⟨hvis, fun hmem => hnv ?_⟩
          exact Finset.mem_insert_of_mem hmem
        · exact ⟨hvisv, hv⟩
      · rintro ⟨hvis, hnv⟩
        by_cases hxv : x = v
        · exact Or.inr hxv
        · exact Or.inl ⟨hvis, by simp [hs1, hxv, hnv]⟩

/-- Loop version of the second-pass delta lemma. -/
theorem dfsSecondList_delta (fuel : Nat)
    (Hdfs : ∀ v (s : St2), v ∉ s.visited →
      ∃ L, (dfsSecondPass t fuel v s).comp = s.comp ++ L ∧ L.Nodup ∧
        ∀ x, x ∈ L ↔ (x ∈ (dfsSecondPass t fuel v s).visited ∧ x ∉ s.visited)) :
    ∀ (ws : List Int) (s : St2),
      ∃ L, (dfsSecondList t fuel ws s).comp = s.comp ++ L ∧ L.Nodup ∧
        ∀ x, x ∈ L ↔ (x ∈ (dfsSecondList t fuel ws s).visited ∧ x ∉ s.visited) := by
  intro ws
  induction ws with
  | nil =>
    intro s
    exact ⟨[], (List.append_nil _).symm, List.nodup_nil, by simp [dfsSecondList_nil_eq]⟩
  | cons w ws ihw =>
    intro s
    rw [dfsSecondList_cons_eq]
    by_cases hc : inRange t.length w ∧ w.toNat ∉ s.visited
    · rw [if_pos hc]
      set s' := dfsSecondPass t fuel w.toNat s with hs'
      obtain ⟨L1, h1o, h1n, h1m⟩ := Hdfs w.toNat s hc.2
      obtain ⟨L2, h2o, h2n, h2m⟩ := ihw s'
      have hmono1 : s.visited ⊆ s'.visited := dfsSecondPass_visited_mono fuel w.toNat s
      have hmono2 : s'.visited ⊆ (dfsSecondList t fuel ws s').visited :=
        dfsSecondList_visited_mono fuel ws s'
      refine ⟨L1 ++ L2, by rw [h2o, h1o, List.append_assoc], ?_, ?_⟩
      · rw [List.nodup_append]
        refine ⟨h1n, h2n, ?_⟩
        intro x hx1 hx2
        exact ((h2m x).1 hx2).2 ((h1m x).1 hx1).1
      · intro x
        rw [List.mem_append, h1m, h2m]
        constructor
        · rintro (⟨hv, hnv⟩ | ⟨hv, hnv⟩)
          · exact ⟨hmono2 hv, hnv⟩
          · exact ⟨hv, fun hx => hnv (hmono1 hx)⟩
        · rintro ⟨hv, hnv⟩
          by_cases hx' : x ∈ s'.visited
          · exact Or.inl ⟨hx', hnv⟩
          · exact Or.inr ⟨hv, hx'⟩
    · rw [if_neg hc]
      exact ihw s

/-- Second-pass delta lemma: calling `dfsSecondPass` on an unvisited node
appends to `component` exactly the newly visited nodes, each once. -/
theorem dfsSecondPass_delta :
    ∀ fuel v (s : St2), v ∉ s.visited →
      ∃ L, (dfsSecondPass t fuel v s).comp = s.comp ++ L ∧ L.Nodup ∧
        ∀ x, x ∈ L ↔ (x ∈ (dfsSecondPass t fuel v s).visited ∧ x ∉ s.visited) := by
  intro fuel
  induction fuel with
  | zero =>
    intro v s _
    exact ⟨[], (List.append_nil _).symm, List.nodup_nil, by simp [dfsSecondPass]⟩
  | succ f ih =>
    intro v s hv
    have hsucc := dfsSecondPass_succ_eq (t := t) f v s
    set s1 : St2 := ⟨insert v s.visited, s.comp ++ [v]⟩ with hs1
    obtain ⟨L1, h1o, h1n, h1m⟩ := dfsSecondList_delta f ih (adj t v) s1
    have hvL1 : v ∉ L1 := fun hvem =>
      ((h1m v).1 hvem).2 (Finset.mem_insert_self v s.visited)
    have hvisv : v ∈ (dfsSecondList t f (adj t v) s1).visited :=
      dfsSecondList_visited_mono f (adj t v) s1 (Finset.mem_insert_self v s.visited)
    refine ⟨v :: L1, ?_, ?_, ?_⟩
    · rw [hsucc, h1o]
      show s1.comp ++ L1 = s.comp ++ (v :: L1)
      simp [hs1]
    · exact List.nodup_cons.2 ⟨hvL1, h1n⟩
    · intro x
      rw [hsucc]
      show x ∈ v :: L1 ↔
        x ∈ (dfsSecondList t f (adj t v) s1).visited ∧ x ∉ s.visited
      rw [List.mem_cons, h1m]
      constructor
      · rintro (rfl | ⟨hvis, hnv⟩)
        · exact ⟨hvisv, hv⟩
        · exact ⟨hvis, fun hmem => hnv (Finset.mem_insert_of_mem hmem)⟩
      · rintro ⟨hvis, hnv⟩
        by_cases hxv : x = v
        · exact Or.inl hxv
        · exact Or.inr ⟨hvis, by simp [hs1, hxv, hnv]⟩

/-- Structural shape of a completed first-pass call: the root is appended
last. -/
theorem dfsFirstPass_order_shape (f v : Nat) (s : St1) :
    ∃ L0, (dfsFirstPass g (f + 1) v s).order = s.order ++ L0 ++ [v] ∧ v ∉ L0 := by
  set s1 : St1 := ⟨insert v s.visited, s.order⟩ with hs1
  obtain ⟨L1, h1o, _, h1m⟩ := dfsFirstList_delta f (dfsFirstPass_delta f) (adj g v) s1
  refine ⟨L1, ?_, fun hvem => ((h1m v).1 hvem).2 (Finset.mem_insert_self v s.visited)⟩
  rw [dfsFirstPass_succ_eq]
  show (dfsFirstList g f (adj g v) s1).order ++ [v] = s.order ++ L1 ++ [v]
  rw [h1o]

/-- Structural shape of a completed second-pass call: the root is the first
element of the appended component segment. -/
theorem dfsSecondPass_comp_shape (f v : Nat) (s : St2) :
    ∃ L1, (dfsSecondPass t (f + 1) v s).comp = s.comp ++ v :: L1 := by
  set s1 : St2 := ⟨insert v s.visited, s.comp ++ [v]⟩ with hs1
  obtain ⟨L1, h1o⟩ := dfsSecondList_comp_append f (adj t v) s1
  refine ⟨L1, ?_⟩
  rw [dfsSecondPass_succ_eq, h1o]
  show s1.comp ++ L1 = s.comp ++ v :: L1
  simp [hs1]

end scc

/-! ## Closure, soundness and completeness of the DFS passes -/

namespace scc

variable {g t : Graph}

theorem ReachAvoid.antitone {V W : Finset Nat} (hVW : V ⊆ W) {a b : Nat}
    (h : ReachAvoid g W a b) : ReachAvoid g V a b :=
  Relation.ReflTransGen.mono (fun _ _ hp => ⟨hp.1, fun hb => hp.2 (hVW hb)⟩) h

/-- Loop closure for the first pass: all in-range entries of the worklist end
up visited, and every newly visited node has all its in-range out-neighbors
visited. -/
theorem dfsFirstList_closed (fuel : Nat)
    (Hdfs : ∀ v (s : St1), v < g.length → v ∉ s.visited → Suff g fuel s.visited →
      ∀ u w, u ∈ (dfsFirstPass g fuel v s).visited → u ∉ s.visited → Edge g u w →
        w ∈ (dfsFirstPass g fuel v s).visited) :
    ∀ (ws : List Int) (s : St1), Suff g fuel s.visited →
      (∀ w ∈ ws, inRange g.length w → w.toNat ∈ (dfsFirstList g fuel ws s).visited) ∧
      (∀ u w, u ∈ (dfsFirstList g fuel ws s).visited → u ∉ s.visited → Edge g u w →
        w ∈ (dfsFirstList g fuel ws s).visited) := by
  intro ws
  induction ws with
  | nil =>
    intro s _
    refine ⟨fun w hw _ => absurd hw (List.not_mem_nil w), ?_⟩
    intro u w hu hnu _
    rw [dfsFirstList_nil_eq] at hu
    exact absurd hu hnu
  | cons w0 ws ihw =>
    intro s hsuff
    rw [dfsFirstList_cons_eq]
    by_cases hc : inRange g.length w0 ∧ w0.toNat ∉ s.visited
    · rw [if_pos hc]
      have hw0n : w0.toNat < g.length := by
        have h1 := hc.1.1
        have h2 := hc.1.2
        omega
      set s' := dfsFirstPass g fuel w0.toNat s with hs'
      have hmono1 : s.visited ⊆ s'.visited := dfsFirstPass_visited_mono fuel w0.toNat s
      have hsuff' : Suff g fuel s'.visited := hsuff.mono hmono1
      have hmono2 : s'.visited ⊆ (dfsFirstList g fuel ws s').visited :=
        dfsFirstList_visited_mono fuel ws s'
      obtain ⟨iha, ihb⟩ := ihw s' hsuff'
      constructor
      · intro w hw hwr
        rcases List.mem_cons.1 hw with rfl | hw
        · exact hmono2 (dfsFirstPass_marks_root (hsuff.one_le hw0n hc.2) w.toNat s)
        · exact iha w hw hwr
      · intro u w hu hnu he
        by_cases hu' : u ∈ s'.visited
        · exact hmono2 (Hdfs w0.toNat s hw0n hc.2 hsuff u w hu' hnu he)
        · exact ihb u w hu hu' he
    · rw [if_neg hc]
      obtain ⟨iha, ihb⟩ := ihw s hsuff
      constructor
      · intro w hw hwr
        rcases List.mem_cons.1 hw with rfl | hw
        · have hvis : w.toNat ∈ s.visited := by
            by_contra hcon
            exact hc ⟨hwr, hcon⟩
          exact dfsFirstList_visited_mono fuel ws s hvis
        · exact iha w hw hwr
      · exact ihb

theorem dfsFirstPass_closed :
    ∀ fuel v (s : St1), v < g.length → v ∉ s.visited → Suff g fuel s.visited →
      ∀ u w, u ∈ (dfsFirstPass g fuel v s).visited → u ∉ s.visited → Edge g u w →
        w ∈ (dfsFirstPass g fuel v s).visited := by
  intro fuel
  induction fuel with
  | zero =>
    intro v s hv hnv hsuff
    exact absurd (hsuff.one_le hv hnv) (by omega)
  | succ f ih =>
    intro v s hv hnv hsuff u w hu hnu he
    rw [dfsFirstPass_succ_eq] at hu ⊢
    set s1 : St1 := ⟨insert v s.visited, s.order⟩ with hs1
    have hsuff1 : Suff g f s1.visited := hsuff.insert_of_succ hv hnv
    obtain ⟨ha, hb⟩ := dfsFirstList_closed f ih (adj g v) s1 hsuff1
    show w ∈ (dfsFirstList g f (adj g v) s1).visited
    by_cases huv : u = v
    · subst huv
      have hwr : inRange g.length (w : Int) := by
        constructor
        · exact Int.natCast_nonneg w
        · exact_mod_cast he.1
      have := ha (w : Int) he.2 hwr
      simpa using this
    · refine hb u w hu ?_ he
      simp [hs1, huv, hnu]

end scc

namespace scc

variable {g t : Graph}

/-- Loop closure for the second pass. -/
theorem dfsSecondList_closed (fuel : Nat)
    (Hdfs : ∀ v (s : St2), v < t.length → v ∉ s.visited → Suff t fuel s.visited →
      ∀ u w, u ∈ (dfsSecondPass t fuel v s).visited → u ∉ s.visited → Edge t u w →
        w ∈ (dfsSecondPass t fuel v s).visited) :
    ∀ (ws : List Int) (s : St2), Suff t fuel s.visited →
      (∀ w ∈ ws, inRange t.length w → w.toNat ∈ (dfsSecondList t fuel ws s).visited) ∧
      (∀ u w, u ∈ (dfsSecondList t fuel ws s).visited → u ∉ s.visited → Edge t u w →
        w ∈ (dfsSecondList t fuel ws s).visited) := by
  intro ws
  induction ws with
  | nil =>
    intro s _
    refine ⟨fun w hw _ => absurd hw (List.not_mem_nil w), ?_⟩
    intro u w hu hnu _
    rw [dfsSecondList_nil_eq] at hu
    exact absurd hu hnu
  | cons w0 ws ihw =>
    intro s hsuff
    rw [dfsSecondList_cons_eq]
    by_cases hc : inRange t.length w0 ∧ w0.toNat ∉ s.visited
    · rw [if_pos hc]
      have hw0n : w0.toNat < t.length := by
        have h1 := hc.1.1
        have h2 := hc.1.2
        omega
      set s' := dfsSecondPass t fuel w0.toNat s with hs'
      have hmono1 : s.visited ⊆ s'.visited := dfsSecondPass_visited_mono fuel w0.toNat s
      have hsuff' : Suff t fuel s'.visited := hsuff.mono hmono1
      have hmono2 : s'.visited ⊆ (dfsSecondList t fuel ws s').visited :=
        dfsSecondList_visited_mono fuel ws s'
      obtain ⟨iha, ihb⟩ := ihw s' hsuff'
      constructor
      · intro w hw hwr
        rcases List.mem_cons.1 hw with rfl | hw
        · exact hmono2 (dfsSecondPass_marks_root (hsuff.one_le hw0n hc.2) w.toNat s)
        · exact iha w hw hwr
      · intro u w hu hnu he
        by_cases hu' : u ∈ s'.visited
        · exact hmono2 (Hdfs w0.toNat s hw0n hc.2 hsuff u w hu' hnu he)
        · exact ihb u w hu hu' he
    · rw [if_neg hc]
      obtain ⟨iha, ihb⟩ := ihw s hsuff
      constructor
      · intro w hw hwr
        rcases List.mem_cons.1 hw with rfl | hw
        · have hvis : w.toNat ∈ s.visited := by
            by_contra hcon
            exact hc ⟨hwr, hcon⟩
          exact dfsSecondList_visited_mono fuel ws s hvis
        · exact iha w hw hwr
      · exact ihb

theorem dfsSecondPass_closed :
    ∀ fuel v (s : St2), v < t.length → v ∉ s.visited → Suff t fuel s.visited →
      ∀ u w, u ∈ (dfsSecondPass t fuel v s).visited → u ∉ s.visited → Edge t u w →
        w ∈ (dfsSecondPass t fuel v s).visited := by
  intro fuel
  induction fuel with
  | zero =>
    intro v s hv hnv hsuff
    exact absurd (hsuff.one_le hv hnv) (by omega)
  | succ f ih =>
    intro v s hv hnv hsuff u w hu hnu he
    rw [dfsSecondPass_succ_eq] at hu ⊢
    set s1 : St2 := ⟨insert v s.visited, s.comp ++ [v]⟩ with hs1
    have hsuff1 : Suff t f s1.visited := hsuff.insert_of_succ hv hnv
    obtain ⟨ha, hb⟩ := dfsSecondList_closed f ih (adj t v) s1 hsuff1
    show w ∈ (dfsSecondList t f (adj t v) s1).visited
    by_cases huv : u = v
    · subst huv
      have hwr : inRange t.length (w : Int) := by
        constructor
        · exact Int.natCast_nonneg w
        · exact_mod_cast he.1
      have := ha (w : Int) he.2 hwr
      simpa using this
    · refine hb u w hu ?_ he
      simp [hs1, huv, hnu]

/-! ## Soundness: every newly visited node is reachable from the root -/

theorem dfsFirstPass_sound :
    ∀ fuel v (s : St1) x, x ∈ (dfsFirstPass g fuel v s).visited →
      x ∈ s.visited ∨ ReachAvoid g s.visited v x := by
  intro fuel
  induction fuel with
  | zero => intro v s x hx; exact Or.inl hx
  | succ f ih =>
    intro v s x hx
    rw [dfsFirstPass_succ_eq] at hx
    set s1 : St1 := ⟨insert v s.visited, s.order⟩ with hs1
    have hloop : ∀ (ws : List Int) (u : St1) (y : Nat),
        (∀ w ∈ ws, w ∈ adj g v) →
        y ∈ (dfsFirstList g f ws u).visited →
        y ∈ u.visited ∨ ∃ w ∈ ws, inRange g.length w ∧ w.toNat ∉ u.visited ∧
          ReachAvoid g u.visited w.toNat y := by
      intro ws
      induction ws with
      | nil =>
        intro u y _ hy
        exact Or.inl hy
      | cons w0 ws ihw =>
        intro u y hsub hy
        rw [dfsFirstList_cons_eq] at hy
        by_cases hc : inRange g.length w0 ∧ w0.toNat ∉ u.visited
        · rw [if_pos hc] at hy
          set u' := dfsFirstPass g f w0.toNat u with hu'
          have hmono1 : u.visited ⊆ u'.visited := dfsFirstPass_visited_mono f w0.toNat u
          rcases ihw u' y (fun w hw => hsub w (List.mem_cons_of_mem w0 hw)) hy with
            hy' | ⟨w, hwmem, hwr, hwnv, hra⟩
          · rcases ih w0.toNat u y hy' with hy'' | hra
            · exact Or.inl hy''
            · exact Or.inr ⟨w0, List.mem_cons_self w0 ws, hc.1, hc.2, hra⟩
          · refine Or.inr ⟨w, List.mem_cons_of_mem w0 hwmem, hwr,
              fun hmem => hwnv (hmono1 hmem), hra.antitone hmono1⟩
        · rw [if_neg hc] at hy
          rcases ihw u y (fun w hw => hsub w (List.mem_cons_of_mem w0 hw)) hy with
            hy' | ⟨w, hwmem, hwr, hwnv, hra⟩
          · exact Or.inl hy'
          · exact Or.inr ⟨w, List.mem_cons_of_mem w0 hwmem, hwr, hwnv, hra⟩
    rcases hloop (adj g v) s1 x (fun _ hw => hw) hx with hx' | ⟨w, hwmem, hwr, hwnv, hra⟩
    · rcases Finset.mem_insert.1 hx' with rfl | hx''
      · exact Or.inr Relation.ReflTransGen.refl
      · exact Or.inl hx''
    · right
      have hnv : w.toNat ∉ s.visited := fun hmem => hwnv (by simp [hs1, hmem])
      have hedge : Edge g v w.toNat := by
        refine ⟨?_, ?_⟩
        · have h1 := hwr.1
          have h2 := hwr.2
          omega
        · rw [Int.toNat_of_nonneg hwr.1]
          exact hwmem
      have hra' : ReachAvoid g s.visited w.toNat x :=
        hra.antitone (by simp [hs1, Finset.subset_insert])
      exact Relation.ReflTransGen.head ⟨hedge, hnv⟩ hra'

theorem dfsSecondPass_sound :
    ∀ fuel v (s : St2) x, x ∈ (dfsSecondPass t fuel v s).visited →
      x ∈ s.visited ∨ ReachAvoid t s.visited v x := by
  intro fuel
  induction fuel with
  | zero => intro v s x hx; exact Or.inl hx
  | succ f ih =>
    intro v s x hx
    rw [dfsSecondPass_succ_eq] at hx
    set s1 : St2 := ⟨insert v s.visited, s.comp ++ [v]⟩ with hs1
    have hloop : ∀ (ws : List Int) (u : St2) (y : Nat),
        y ∈ (dfsSecondList t f ws u).visited →
        y ∈ u.visited ∨ ∃ w ∈ ws, inRange t.length w ∧ w.toNat ∉ u.visited ∧
          ReachAvoid t u.visited w.toNat y := by
      intro ws
      induction ws with
      | nil =>
        intro u y hy
        exact Or.inl hy
      | cons w0 ws ihw =>
        intro u y hy
        rw [dfsSecondList_cons_eq] at hy
        by_cases hc : inRange t.length w0 ∧ w0.toNat ∉ u.visited
        · rw [if_pos hc] at hy
          set u' := dfsSecondPass t f w0.toNat u with hu'
          have hmono1 : u.visited ⊆ u'.visited := dfsSecondPass_visited_mono f w0.toNat u
          rcases ihw u' y hy with hy' | ⟨w, hwmem, hwr, hwnv, hra⟩
          · rcases ih w0.toNat u y hy' with hy'' | hra
            · exact Or.inl hy''
            · exact Or.inr ⟨w0, List.mem_cons_self w0 ws, hc.1, hc.2, hra⟩
          · refine Or.inr ⟨w, List.mem_cons_of_mem w0 hwmem, hwr,
              fun hmem => hwnv (hmono1 hmem), hra.antitone hmono1⟩
        · rw [if_neg hc] at hy
          rcases ihw u y hy with hy' | ⟨w, hwmem, hwr, hwnv, hra⟩
          · exact Or.inl hy'
          · exact Or.inr ⟨w, List.mem_cons_of_mem w0 hwmem, hwr, hwnv, hra⟩
    rcases hloop (adj t v) s1 x hx with hx' | ⟨w, hwmem, hwr, hwnv, hra⟩
    · rcases Finset.mem_insert.1 hx' with rfl | hx''
      · exact Or.inr Relation.ReflTransGen.refl
      · exact Or.inl hx''
    · right
      have hnv : w.toNat ∉ s.visited := fun hmem => hwnv (by simp [hs1, hmem])
      have hedge : Edge t v w.toNat := by
        refine ⟨?_, ?_⟩
        · have h1 := hwr.1
          have h2 := hwr.2
          omega
        · rw [Int.toNat_of_nonneg hwr.1]
          exact hwmem
      have hra' : ReachAvoid t s.visited w.toNat x :=
        hra.antitone (by simp [hs1, Finset.subset_insert])
      exact Relation.ReflTransGen.head ⟨hedge, hnv⟩ hra'

/-! ## Completeness: every node reachable while avoiding `visited` is visited -/

theorem dfsFirstPass_complete {fuel v : Nat} {s : St1}
    (hv : v < g.length) (hnv : v ∉ s.visited) (hsuff : Suff g fuel s.visited) :
    ∀ x, ReachAvoid g s.visited v x → x ∈ (dfsFirstPass g fuel v s).visited := by
  have hmain : ∀ x, ReachAvoid g s.visited v x →
      x ∈ (dfsFirstPass g fuel v s).visited ∧ x ∉ s.visited := by
    intro x hx
    induction hx with
    | refl =>
      exact ⟨dfsFirstPass_marks_root (hsuff.one_le hv hnv) v s, hnv⟩
    | tail hab hbc ih =>
      rename_i b c
      exact ⟨dfsFirstPass_closed fuel v s hv hnv hsuff b c ih.1 ih.2 hbc.1, hbc.2⟩
  exact fun x hx => (hmain x hx).1

theorem dfsSecondPass_complete {fuel v : Nat} {s : St2}
    (hv : v < t.length) (hnv : v ∉ s.visited) (hsuff : Suff t fuel s.visited) :
    ∀ x, ReachAvoid t s.visited v x → x ∈ (dfsSecondPass t fuel v s).visited := by
  have hmain : ∀ x, ReachAvoid t s.visited v x →
      x ∈ (dfsSecondPass t fuel v s).visited ∧ x ∉ s.visited := by
    intro x hx
    induction hx with
    | refl =>
      exact ⟨dfsSecondPass_marks_root (hsuff.one_le hv hnv) v s, hnv⟩
    | tail hab hbc ih =>
      rename_i b c
      exact ⟨dfsSecondPass_closed fuel v s hv hnv hsuff b c ih.1 ih.2 hbc.1, hbc.2⟩
  exact fun x hx => (hmain x hx).1

end scc

/-! ## The first pass visits every node and orders them without duplicates -/

namespace scc

variable {g t : Graph}

theorem Suff.of_le {fuel : Nat} {V : Finset Nat} (h : g.length ≤ fuel) :
    Suff g fuel V :=
  le_trans (le_trans (Finset.card_le_card (Finset.sdiff_subset))
    (le_of_eq (Finset.card_range g.length))) h

theorem firstLoop_nil_eq (fuel : Nat) (s : St1) : firstLoop g fuel [] s = s := rfl

theorem firstLoop_cons_eq (fuel v : Nat) (rs : List Nat) (s : St1) :
    firstLoop g fuel (v :: rs) s =
      firstLoop g fuel rs (if v ∉ s.visited then dfsFirstPass g fuel v s else s) := rfl

theorem firstLoop_inv {fuel : Nat} (hfuel : g.length ≤ fuel) :
    ∀ (rs : List Nat) (s : St1), (∀ v ∈ rs, v < g.length) →
      s.order.Nodup → (∀ x, x ∈ s.order ↔ x ∈ s.visited) →
      s.visited ⊆ Finset.range g.length →
      (firstLoop g fuel rs s).order.Nodup ∧
      (∀ x, x ∈ (firstLoop g fuel rs s).order ↔ x ∈ (firstLoop g fuel rs s).visited) ∧
      (firstLoop g fuel rs s).visited ⊆ Finset.range g.length ∧
      s.visited ⊆ (firstLoop g fuel rs s).visited ∧
      (∀ v ∈ rs, v ∈ (firstLoop g fuel rs s).visited) ∧
      (∃ L, (firstLoop g fuel rs s).order = s.order ++ L) := by
  intro rs
  induction rs with
  | nil =>
    intro s _ h1 h2 h3
    rw [firstLoop_nil_eq]
    exact ⟨h1, h2, h3, Finset.Subset.refl _, fun v hv => absurd hv (List.not_mem_nil v),
      ⟨[], (List.append_nil _).symm⟩⟩
  | cons v rs ihr =>
    intro s hrs h1 h2 h3
    rw [firstLoop_cons_eq]
    have hv : v < g.length := hrs v (List.mem_cons_self v rs)
    by_cases hvis : v ∉ s.visited
    · rw [if_pos hvis]
      set s' := dfsFirstPass g fuel v s with hs'
      obtain ⟨L, hLo, hLn, hLm⟩ := dfsFirstPass_delta fuel v s hvis
      have h1' : s'.order.Nodup := by
        rw [hLo, List.nodup_append]
        exact ⟨h1, hLn, fun x hx1 hx2 =>
          ((hLm x).1 hx2).2 ((h2 x).1 hx1)⟩
      have h2' : ∀ x, x ∈ s'.order ↔ x ∈ s'.visited := by
        intro x
        rw [hLo, List.mem_append, h2, hLm]
        constructor
        · rintro (hx | ⟨hx, _⟩)
          · exact dfsFirstPass_visited_mono fuel v s hx
          · exact hx
        · intro hx
          by_cases hxs : x ∈ s.visited
          · exact Or.inl hxs
          · exact Or.inr ⟨hx, hxs⟩
      have h3' : s'.visited ⊆ Finset.range g.length := by
        refine (dfsFirstPass_visited_range fuel v s hv).trans ?_
        exact Finset.union_subset h3 (Finset.Subset.refl _)
      obtain ⟨ih1, ih2, ih3, ih4, ih5, ih6⟩ :=
        ihr s' (fun u hu => hrs u (List.mem_cons_of_mem v hu)) h1' h2' h3'
      refine ⟨ih1, ih2, ih3,
        (dfsFirstPass_visited_mono fuel v s).trans ih4, ?_, ?_⟩
      · intro u hu
        rcases List.mem_cons.1 hu with rfl | hu
        · exact ih4 (dfsFirstPass_marks_root ((Suff.of_le hfuel).one_le hv hvis) _ s)
        · exact ih5 u hu
      · obtain ⟨L2, hL2⟩ := ih6
        exact ⟨L ++ L2, by rw [hL2, hLo, List.append_assoc]⟩
    · rw [if_neg hvis]
      push_neg at hvis
      obtain ⟨ih1, ih2, ih3, ih4, ih5, ih6⟩ :=
        ihr s (fun u hu => hrs u (List.mem_cons_of_mem v hu)) h1 h2 h3
      refine ⟨ih1, ih2, ih3, ih4, ?_, ih6⟩
      intro u hu
      rcases List.mem_cons.1 hu with rfl | hu
      · exact ih4 hvis
      · exact ih5 u hu

end scc

namespace scc

variable {g t : Graph}

theorem firstPass_props {fuel : Nat} (hfuel : g.length ≤ fuel) :
    (firstPassFuel g fuel).order.Nodup ∧
    (∀ x, x ∈ (firstPassFuel g fuel).order ↔ x ∈ (firstPassFuel g fuel).visited) ∧
    (firstPassFuel g fuel).visited = Finset.range g.length := by
  obtain ⟨h1, h2, h3, _, h5, _⟩ :=
    firstLoop_inv hfuel (List.range g.length) ⟨∅, []⟩
      (fun v hv => List.mem_range.1 hv) List.nodup_nil (by simp)
      (Finset.empty_subset _)
  exact ⟨h1, h2, Finset.Subset.antisymm h3
    (fun x hx => h5 x (List.mem_range.2 (Finset.mem_range.1 hx)))⟩

theorem firstPass_order_nodup {fuel : Nat} (hfuel : g.length ≤ fuel) :
    (firstPassFuel g fuel).order.Nodup := (firstPass_props hfuel).1

theorem firstPass_order_mem {fuel : Nat} (hfuel : g.length ≤ fuel) (x : Nat) :
    x ∈ (firstPassFuel g fuel).order ↔ x < g.length := by
  rw [(firstPass_props hfuel).2.1 x, (firstPass_props hfuel).2.2, Finset.mem_range]

theorem firstPass_order_perm {fuel : Nat} (hfuel : g.length ≤ fuel) :
    (firstPassFuel g fuel).order.Perm (List.range g.length) := by
  rw [List.perm_ext_iff_of_nodup (firstPass_order_nodup hfuel) (List.nodup_range _)]
  intro x
  rw [firstPass_order_mem hfuel x, List.mem_range]

theorem firstPass_order_length {fuel : Nat} (hfuel : g.length ≤ fuel) :
    (firstPassFuel g fuel).order.length = g.length := by
  rw [(firstPass_order_perm hfuel).length_eq, List.length_range]

end scc

/-! ## Split lemmas: the sub-call on the first node of a set to be discovered -/

namespace scc

variable {g t : Graph}

theorem dfsFirstPass_ordsub {fuel v : Nat} {s : St1} (hv : v ∉ s.visited)
    (h : ∀ x ∈ s.order, x ∈ s.visited) :
    ∀ x ∈ (dfsFirstPass g fuel v s).order, x ∈ (dfsFirstPass g fuel v s).visited := by
  obtain ⟨L, hLo, _, hLm⟩ := dfsFirstPass_delta fuel v s hv
  intro x hx
  rw [hLo, List.mem_append] at hx
  rcases hx with hx | hx
  · exact dfsFirstPass_visited_mono fuel v s (h x hx)
  · exact ((hLm x).1 hx).1

theorem dfsFirstList_split (f : Nat)
    (IH : ∀ (v : Nat) (s : St1) (U : Set Nat),
      v < g.length → v ∉ s.visited → Suff g f s.visited →
      (∀ x ∈ s.order, x ∈ s.visited) →
      (∀ x ∈ U, x ∉ s.visited) →
      (∃ x ∈ U, x ∈ (dfsFirstPass g f v s).visited) →
      ∃ d f' s', d ∈ U ∧ d < g.length ∧ (∀ x ∈ U, x ∉ St1.visited s') ∧
        s.visited ⊆ St1.visited s' ∧ Suff g f' (St1.visited s') ∧
        (∀ x ∈ St1.order s', x ∈ St1.visited s') ∧
        (dfsFirstPass g f' d s').order <+: (dfsFirstPass g f v s).order ∧
        (dfsFirstPass g f' d s').visited ⊆ (dfsFirstPass g f v s).visited) :
    ∀ (ws : List Int) (s : St1) (U : Set Nat),
      Suff g f s.visited →
      (∀ x ∈ s.order, x ∈ s.visited) →
      (∀ x ∈ U, x ∉ s.visited) →
      (∃ x ∈ U, x ∈ (dfsFirstList g f ws s).visited) →
      ∃ d f' s', d ∈ U ∧ d < g.length ∧ (∀ x ∈ U, x ∉ St1.visited s') ∧
        s.visited ⊆ St1.visited s' ∧ Suff g f' (St1.visited s') ∧
        (∀ x ∈ St1.order s', x ∈ St1.visited s') ∧
        (dfsFirstPass g f' d s').order <+: (dfsFirstList g f ws s).order ∧
        (dfsFirstPass g f' d s').visited ⊆ (dfsFirstList g f ws s).visited := by
  intro ws
  induction ws with
  | nil =>
    intro s U _ _ hU htouch
    rw [dfsFirstList_nil_eq] at htouch
    obtain ⟨x, hxU, hxv⟩ := htouch
    exact absurd hxv (hU x hxU)
  | cons w0 ws ihw =>
    intro s U hsuff hord hU htouch
    rw [dfsFirstList_cons_eq] at htouch ⊢
    by_cases hc : inRange g.length w0 ∧ w0.toNat ∉ s.visited
    · rw [if_pos hc] at htouch ⊢
      have hw0n : w0.toNat < g.length := by
        have h1 := hc.1.1
        have h2 := hc.1.2
        omega
      set s1 := dfsFirstPass g f w0.toNat s with hs1
      have hmono1 : s.visited ⊆ s1.visited := dfsFirstPass_visited_mono f w0.toNat s
      have hord1 : ∀ x ∈ s1.order, x ∈ s1.visited := dfsFirstPass_ordsub hc.2 hord
      by_cases hfirst : ∃ x ∈ U, x ∈ s1.visited
      · obtain ⟨d, f', s', hdU, hdn, hU', hsub', hsuff', hord', hpre, hvsub⟩ :=
          IH w0.toNat s U hw0n hc.2 hsuff hord hU hfirst
        refine ⟨d, f', s', hdU, hdn, hU', hsub', hsuff', hord', ?_, ?_⟩
        · obtain ⟨L, hL⟩ := dfsFirstList_order_append f ws s1
          rw [hL]
          exact hpre.trans (List.prefix_append s1.order L)
        · exact hvsub.trans (dfsFirstList_visited_mono f ws s1)
      · obtain ⟨d, f', s', hdU, hdn, hU', hsub', hsuff', hord', hpre, hvsub⟩ :=
          ihw s1 U (hsuff.mono hmono1) hord1
            (fun x hxU hmem => hfirst ⟨x, hxU, hmem⟩) htouch
        exact ⟨d, f', s', hdU, hdn, hU', hmono1.trans hsub', hsuff', hord', hpre, hvsub⟩
    · rw [if_neg hc] at htouch ⊢
      exact ihw s U hsuff hord hU htouch

theorem dfsFirstPass_split :
    ∀ (fuel : Nat) (v : Nat) (s : St1) (U : Set Nat),
      v < g.length → v ∉ s.visited → Suff g fuel s.visited →
      (∀ x ∈ s.order, x ∈ s.visited) →
      (∀ x ∈ U, x ∉ s.visited) →
      (∃ x ∈ U, x ∈ (dfsFirstPass g fuel v s).visited) →
      ∃ d f' s', d ∈ U ∧ d < g.length ∧ (∀ x ∈ U, x ∉ St1.visited s') ∧
        s.visited ⊆ St1.visited s' ∧ Suff g f' (St1.visited s') ∧
        (∀ x ∈ St1.order s', x ∈ St1.visited s') ∧
        (dfsFirstPass g f' d s').order <+: (dfsFirstPass g fuel v s).order ∧
        (dfsFirstPass g f' d s').visited ⊆ (dfsFirstPass g fuel v s).visited := by
  intro fuel
  induction fuel with
  | zero =>
    intro v s U hv hnv hsuff
    exact absurd (hsuff.one_le hv hnv) (by omega)
  | succ f ih =>
    intro v s U hv hnv hsuff hord hU htouch
    by_cases hvU : v ∈ U
    · exact ⟨v, f + 1, s, hvU, hv, hU, Finset.Subset.refl _, hsuff, hord,
        List.prefix_refl _, Finset.Subset.refl _⟩
    · rw [dfsFirstPass_succ_eq] at htouch ⊢
      set s1 : St1 := ⟨insert v s.visited, s.order⟩ with hs1
      have hU1 : ∀ x ∈ U, x ∉ s1.visited := by
        intro x hxU
        simp only [hs1, Finset.mem_insert, not_or]
        exact ⟨fun hxv => hvU (hxv ▸ hxU), hU x hxU⟩
      have hord1 : ∀ x ∈ s1.order, x ∈ s1.visited := by
        intro x hx
        exact Finset.mem_insert_of_mem (hord x hx)
      have htouch1 : ∃ x ∈ U, x ∈ (dfsFirstList g f (adj g v) s1).visited := by
        obtain ⟨x, hxU, hxv⟩ := htouch
        exact ⟨x, hxU, hxv⟩
      obtain ⟨d, f', s', hdU, hdn, hU', hsub', hsuff', hord', hpre, hvsub⟩ :=
        dfsFirstList_split f ih (adj g v) s1 U (hsuff.insert_of_succ hv hnv)
          hord1 hU1 htouch1
      refine ⟨d, f', s', hdU, hdn, hU',
        (Finset.subset_insert v s.visited).trans hsub', hsuff', hord', ?_, ?_⟩
      · refine hpre.trans ?_
        exact ⟨[v], rfl⟩
      · exact hvsub

theorem firstLoop_order_append (fuel : Nat) :
    ∀ (rs : List Nat) (s : St1), ∃ L, (firstLoop g fuel rs s).order = s.order ++ L := by
  intro rs
  induction rs with
  | nil => intro s; exact ⟨[], (List.append_nil _).symm⟩
  | cons v rs ihr =>
    intro s
    rw [firstLoop_cons_eq]
    by_cases hvis : v ∉ s.visited
    · rw [if_pos hvis]
      obtain ⟨L1, h1⟩ := dfsFirstPass_order_append fuel v s
      obtain ⟨L2, h2⟩ := ihr (dfsFirstPass g fuel v s)
      exact ⟨L1 ++ L2, by rw [h2, h1, List.append_assoc]⟩
    · rw [if_neg hvis]
      exact ihr s

theorem firstLoop_visited_mono (fuel : Nat) :
    ∀ (rs : List Nat) (s : St1), s.visited ⊆ (firstLoop g fuel rs s).visited := by
  intro rs
  induction rs with
  | nil => intro s; exact Finset.Subset.refl _
  | cons v rs ihr =>
    intro s
    rw [firstLoop_cons_eq]
    by_cases hvis : v ∉ s.visited
    · rw [if_pos hvis]
      exact (dfsFirstPass_visited_mono fuel v s).trans (ihr _)
    · rw [if_neg hvis]
      exact ihr s

theorem firstLoop_split {fuel : Nat} (hfuel : g.length ≤ fuel) :
    ∀ (rs : List Nat) (s : St1) (U : Set Nat),
      (∀ v ∈ rs, v < g.length) →
      (∀ x ∈ s.order, x ∈ s.visited) →
      (∀ x ∈ U, x ∉ s.visited) →
      (∃ x ∈ U, x ∈ (firstLoop g fuel rs s).visited) →
      ∃ d f' s', d ∈ U ∧ d < g.length ∧ (∀ x ∈ U, x ∉ St1.visited s') ∧
        Suff g f' (St1.visited s') ∧
        (∀ x ∈ St1.order s', x ∈ St1.visited s') ∧
        (dfsFirstPass g f' d s').order <+: (firstLoop g fuel rs s).order ∧
        (dfsFirstPass g f' d s').visited ⊆ (firstLoop g fuel rs s).visited := by
  intro rs
  induction rs with
  | nil =>
    intro s U _ _ hU htouch
    rw [firstLoop_nil_eq] at htouch
    obtain ⟨x, hxU, hxv⟩ := htouch
    exact absurd hxv (hU x hxU)
  | cons v rs ihr =>
    intro s U hrs hord hU htouch
    rw [firstLoop_cons_eq] at htouch ⊢
    have hvn : v < g.length := hrs v (List.mem_cons_self v rs)
    by_cases hvis : v ∉ s.visited
    · rw [if_pos hvis] at htouch ⊢
      set s1 := dfsFirstPass g fuel v s with hs1
      have hord1 : ∀ x ∈ s1.order, x ∈ s1.visited := dfsFirstPass_ordsub hvis hord
      by_cases hfirst : ∃ x ∈ U, x ∈ s1.visited
      · obtain ⟨d, f', s', hdU, hdn, hU', _, hsuff', hord', hpre, hvsub⟩ :=
          dfsFirstPass_split fuel v s U hvn hvis (Suff.of_le hfuel) hord hU hfirst
        refine ⟨d, f', s', hdU, hdn, hU', hsuff', hord', ?_, ?_⟩
        · obtain ⟨L, hL⟩ := firstLoop_order_append fuel rs s1
          rw [hL]
          exact hpre.trans (List.prefix_append s1.order L)
        · exact hvsub.trans (firstLoop_visited_mono fuel rs s1)
      · exact ihr s1 U (fun u hu => hrs u (List.mem_cons_of_mem v hu)) hord1
          (fun x hxU hmem => hfirst ⟨x, hxU, hmem⟩) htouch
    · rw [if_neg hvis] at htouch ⊢
      exact ihr s U (fun u hu => hrs u (List.mem_cons_of_mem v hu)) hord hU htouch

end scc

/-! ## Characterization of the transpose construction -/

namespace scc

variable {g t : Graph}

theorem pushAt_length (t : Graph) (b : Nat) (y : Int) :
    (pushAt t b y).length = t.length := by
  simp [pushAt]

theorem pushAt_getD (t : Graph) (b : Nat) (y : Int) (a : Nat) :
    (pushAt t b y).getD a [] =
      if a = b ∧ b < t.length then t.getD a [] ++ [y] else t.getD a [] := by
  unfold pushAt
  by_cases hab : a = b
  · subst hab
    by_cases hb : a < t.length
    · simp [List.getElem?_set, hb, List.getD_eq_getElem?_getD,
        List.getElem?_eq_getElem hb]
    · rw [if_neg (by tauto)]
      have hnone : t[a]? = none := List.getElem?_eq_none (by omega)
      simp [List.getD_eq_getElem?_getD, List.getElem?_set, hb, hnone]
  · rw [if_neg (by tauto)]
    simp only [List.getD_eq_getElem?_getD, List.getElem?_set]
    rw [if_neg (fun h => hab h.symm)]

/-- The inner loop of the transpose construction over one adjacency list. -/
theorem transposeInner_spec (v : Nat) :
    ∀ (ws : List Int) (acc : Graph), acc.length = g.length →
      (ws.foldl (fun t' w => if inRange g.length w then pushAt t' w.toNat (v : Int) else t')
        acc).length = g.length ∧
      ∀ (a : Nat) (x : Int),
        ((ws.foldl (fun t' w => if inRange g.length w then pushAt t' w.toNat (v : Int) else t')
          acc).getD a []).count x =
        (acc.getD a []).count x +
          (if x = (v : Int) then
            ws.countP (fun w => decide (inRange g.length w) && decide (w.toNat = a))
          else 0) := by
  intro ws
  induction ws with
  | nil =>
    intro acc hlen
    refine ⟨hlen, fun a x => ?_⟩
    simp [List.countP_nil]
  | cons w ws ihw =>
    intro acc hlen
    simp only [List.foldl_cons]
    by_cases hw : inRange g.length w
    · rw [if_pos hw]
      have hlen' : (pushAt acc w.toNat (v : Int)).length = g.length := by
        rw [pushAt_length]; exact hlen
      obtain ⟨ih1, ih2⟩ := ihw (pushAt acc w.toNat (v : Int)) hlen'
      refine ⟨ih1, fun a x => ?_⟩
      rw [ih2 a x, pushAt_getD]
      have hcnt : (w :: ws).countP (fun w' => decide (inRange g.length w') && decide (w'.toNat = a))
          = ws.countP (fun w' => decide (inRange g.length w') && decide (w'.toNat = a))
            + (if w.toNat = a then 1 else 0) := by
        rw [List.countP_cons]
        by_cases hwa : w.toNat = a
        · rw [if_pos hwa, if_pos (by simp [hw, hwa])]
        · rw [if_neg hwa, if_neg (by simp [hwa])]
      by_cases hax : a = w.toNat ∧ w.toNat < acc.length
      · rw [if_pos hax, List.count_append]
        by_cases hxv : x = (v : Int)
        · subst hxv
          rw [if_pos rfl, if_pos rfl, hcnt, if_pos hax.1.symm]
          have hc1 : List.count ((v : Nat) : Int) [((v : Nat) : Int)] = 1 := by
            rw [List.count_cons, List.count_nil]
            simp
          omega
        · rw [if_neg hxv, if_neg hxv]
          have hc0 : List.count x [((v : Nat) : Int)] = 0 := by
            rw [List.count_cons, List.count_nil]
            simp only [beq_iff_eq]
            rw [if_neg (fun h => hxv h.symm)]
          omega
      · rw [if_neg hax]
        have hwa : ¬ (w.toNat = a) := by
          intro h
          refine hax ⟨h.symm, ?_⟩
          have h1 := hw.1
          have h2 := hw.2
          omega
        rw [hcnt, if_neg hwa]
        by_cases hxv : x = (v : Int)
        · rw [if_pos hxv, if_pos hxv]
          omega
        · rw [if_neg hxv, if_neg hxv]
    · rw [if_neg hw]
      obtain ⟨ih1, ih2⟩ := ihw acc hlen
      refine ⟨ih1, fun a x => ?_⟩
      rw [ih2 a x, List.countP_cons]
      have : (decide (inRange g.length w) && decide (w.toNat = a)) = false := by
        simp only [Bool.and_eq_false_iff, decide_eq_false_iff_not]
        exact Or.inl hw
      rw [this]
      by_cases hxv : x = (v : Int)
      · rw [if_pos hxv, if_pos hxv]
        simp
      · rw [if_neg hxv, if_neg hxv]

end scc

namespace scc

variable {g t : Graph}

theorem adj_src_lt {u : Nat} {x : Int} (hx : x ∈ adj g u) : u < g.length := by
  by_contra hu
  rw [adj, List.getD_eq_default _ _ (by omega)] at hx
  exact absurd hx (List.not_mem_nil x)

theorem sum_indicator_zero (F : Nat → Nat) (x : Int) :
    ∀ l : List Nat, (∀ v ∈ l, x ≠ (v : Int)) →
      (l.map (fun (v' : Nat) => if x = (v' : Int) then F v' else 0)).sum = 0 := by
  intro l
  induction l with
  | nil => intro _; rfl
  | cons u l ihl =>
    intro h
    simp only [List.map_cons, List.sum_cons]
    rw [if_neg (h u (List.mem_cons_self u l)), ihl (fun v hv => h v (List.mem_cons_of_mem u hv))]

theorem sum_indicator_one (F : Nat → Nat) :
    ∀ l : List Nat, l.Nodup → ∀ v ∈ l,
      (l.map (fun (v' : Nat) => if ((v : Nat) : Int) = (v' : Int) then F v' else 0)).sum = F v := by
  intro l
  induction l with
  | nil => intro _ v hv; exact absurd hv (List.not_mem_nil v)
  | cons u l ihl =>
    intro hnd v hv
    simp only [List.map_cons, List.sum_cons]
    rcases List.mem_cons.1 hv with rfl | hv'
    · rw [if_pos rfl, sum_indicator_zero]
      · exact Nat.add_zero _
      · intro v' hv' heq
        have : v = v' := by exact_mod_cast heq
        exact (List.nodup_cons.1 hnd).1 (this ▸ hv')
    · have hvu : v ≠ u := by
        intro h
        exact (List.nodup_cons.1 hnd).1 (h ▸ hv')
      rw [if_neg (by exact_mod_cast hvu), ihl (List.nodup_cons.1 hnd).2 v hv']
      exact Nat.zero_add _

theorem transposeOuter_spec :
    ∀ (vs : List Nat) (acc : Graph), acc.length = g.length →
      (vs.foldl (fun tt (v : Nat) => (adj g v).foldl
          (fun t' w => if inRange g.length w then pushAt t' w.toNat (v : Int) else t') tt)
        acc).length = g.length ∧
      ∀ (a : Nat) (x : Int),
        ((vs.foldl (fun tt (v : Nat) => (adj g v).foldl
            (fun t' w => if inRange g.length w then pushAt t' w.toNat (v : Int) else t') tt)
          acc).getD a []).count x =
        (acc.getD a []).count x +
          (vs.map (fun (v : Nat) => if x = (v : Int) then
            (adj g v).countP (fun w => decide (inRange g.length w) && decide (w.toNat = a))
          else 0)).sum := by
  intro vs
  induction vs with
  | nil =>
    intro acc hlen
    exact ⟨hlen, fun a x => by simp⟩
  | cons v vs ihv =>
    intro acc hlen
    simp only [List.foldl_cons]
    obtain ⟨hin1, hin2⟩ := transposeInner_spec v (adj g v) acc hlen
    obtain ⟨ih1, ih2⟩ := ihv _ hin1
    refine ⟨ih1, fun a x => ?_⟩
    rw [ih2 a x, hin2 a x]
    simp only [List.map_cons, List.sum_cons]
    omega

theorem transposeOf_length : (transposeOf g).length = g.length := by
  have := (transposeOuter_spec (g := g) (List.range g.length)
    (List.replicate g.length []) (List.length_replicate _ _)).1
  exact this

theorem transposeOf_count_all (a : Nat) (x : Int) :
    (adj (transposeOf g) a).count x =
      ((List.range g.length).map (fun (v : Nat) => if x = (v : Int) then
        (adj g v).countP (fun w => decide (inRange g.length w) && decide (w.toNat = a))
      else 0)).sum := by
  have h := (transposeOuter_spec (g := g) (List.range g.length)
    (List.replicate g.length []) (List.length_replicate _ _)).2 a x
  have hbase : ((List.replicate g.length ([] : List Int)).getD a []).count x = 0 := by
    have : (List.replicate g.length ([] : List Int)).getD a [] = [] := by
      rw [List.getD_eq_getElem?_getD, List.getElem?_replicate]
      by_cases ha : a < g.length
      · rw [if_pos ha]
        rfl
      · rw [if_neg ha]
        rfl
    rw [this]
    rfl
  unfold adj transposeOf
  rw [h, hbase]
  exact Nat.zero_add _

theorem countP_range_eq_count {v w : Nat} (hw : w < g.length) :
    (adj g v).countP (fun w' => decide (inRange g.length w') && decide (w'.toNat = w))
      = (adj g v).count ((w : Nat) : Int) := by
  rw [List.count_eq_countP]
  refine List.countP_congr ?_
  intro x _
  simp only [Bool.and_eq_true, decide_eq_true_eq, beq_iff_eq]
  constructor
  · rintro ⟨⟨h0, hn⟩, htn⟩
    omega
  · rintro rfl
    refine ⟨⟨Int.natCast_nonneg w, by exact_mod_cast hw⟩, by omega⟩

/-- Each in-range occurrence of edge `(v → w)` in `g` contributes exactly one
occurrence of `(w → v)` to the transpose. -/
theorem transposeOf_count {v w : Nat} (hv : v < g.length) (hw : w < g.length) :
    (adj (transposeOf g) w).count ((v : Nat) : Int) = (adj g v).count ((w : Nat) : Int) := by
  rw [transposeOf_count_all, sum_indicator_one _ (List.range g.length)
    (List.nodup_range _) v (List.mem_range.2 hv), countP_range_eq_count hw]

/-- Every entry of the transpose is an in-range node index. -/
theorem transposeOf_entries (a : Nat) :
    ∀ x ∈ adj (transposeOf g) a, ∃ v, v < g.length ∧ x = (v : Int) := by
  intro x hx
  by_contra hcon
  push_neg at hcon
  have h0 : (adj (transposeOf g) a).count x = 0 := by
    rw [transposeOf_count_all]
    exact sum_indicator_zero _ x _ (fun v hv => hcon v (List.mem_range.1 hv))
  rw [← List.count_pos_iff] at hx
  omega

theorem transposeOf_mem (a b : Nat) :
    ((b : Int) ∈ adj (transposeOf g) a) ↔
      (b < g.length ∧ a < g.length ∧ (a : Int) ∈ adj g b) := by
  constructor
  · intro hmem
    have hpos : 0 < (adj (transposeOf g) a).count ((b : Nat) : Int) :=
      List.count_pos_iff.2 hmem
    by_cases hb : b < g.length
    · rw [transposeOf_count_all, sum_indicator_one _ (List.range g.length)
        (List.nodup_range _) b (List.mem_range.2 hb)] at hpos
      obtain ⟨w', hw'mem, hw'p⟩ := List.countP_pos_iff.1 hpos
      simp only [Bool.and_eq_true, decide_eq_true_eq] at hw'p
      obtain ⟨⟨h0, hn⟩, htn⟩ := hw'p
      have hw'a : w' = (a : Int) := by omega
      refine ⟨hb, by omega, hw'a ▸ hw'mem⟩
    · rw [transposeOf_count_all, sum_indicator_zero] at hpos
      · omega
      · intro v hv heq
        have : b = v := by exact_mod_cast heq
        exact hb (this ▸ List.mem_range.1 hv)
  · rintro ⟨hb, ha, hmem⟩
    rw [← List.count_pos_iff, transposeOf_count_all, sum_indicator_one _ (List.range g.length)
      (List.nodup_range _) b (List.mem_range.2 hb)]
    rw [List.countP_pos_iff]
    refine ⟨(a : Int), hmem, ?_⟩
    simp only [Bool.and_eq_true, decide_eq_true_eq]
    exact ⟨⟨Int.natCast_nonneg a, by exact_mod_cast ha⟩, by omega⟩

theorem Edge_transposeOf (a b : Nat) : Edge (transposeOf g) a b ↔ Edge g b a := by
  unfold Edge
  rw [transposeOf_length, transposeOf_mem]
  constructor
  · rintro ⟨_, _, ha, hmem⟩
    exact ⟨ha, hmem⟩
  · rintro ⟨ha, hmem⟩
    exact ⟨adj_src_lt hmem, adj_src_lt hmem, ha, hmem⟩

theorem Reach_transposeOf (a b : Nat) : Reach (transposeOf g) a b ↔ Reach g b a := by
  constructor
  · intro h
    induction h with
    | refl => exact Relation.ReflTransGen.refl
    | tail hab hbc ih =>
      exact Relation.ReflTransGen.head ((Edge_transposeOf _ _).1 hbc) ih
  · intro h
    induction h with
    | refl => exact Relation.ReflTransGen.refl
    | tail hab hbc ih =>
      exact Relation.ReflTransGen.head ((Edge_transposeOf _ _).2 hbc) ih

end scc

/-! ## Mutual reachability is an equivalence; paths inside one SCC -/

namespace scc

variable {g t : Graph}

theorem MutualReach.refl (a : Nat) : MutualReach g a a :=
  ⟨Relation.ReflTransGen.refl, Relation.ReflTransGen.refl⟩

theorem MutualReach.symm {a b : Nat} (h : MutualReach g a b) : MutualReach g b a :=
  ⟨h.2, h.1⟩

theorem MutualReach.trans {a b c : Nat} (h1 : MutualReach g a b)
    (h2 : MutualReach g b c) : MutualReach g a c :=
  ⟨h1.1.trans h2.1, h2.2.trans h1.2⟩

theorem Reach.eq_or_lt {a b : Nat} (h : Reach g a b) : b = a ∨ b < g.length := by
  induction h with
  | refl => exact Or.inl rfl
  | tail hab hbc _ => exact Or.inr hbc.1

theorem reach_of_reachAvoid {V : Finset Nat} {a b : Nat}
    (h : ReachAvoid g V a b) : Reach g a b :=
  Relation.ReflTransGen.mono (fun _ _ hp => hp.1) h

/-- A path between two mutually reachable nodes can be rerouted to stay
inside their SCC; if that SCC avoids `V`, so does the path. -/
theorem reachAvoid_of_mutual {V : Finset Nat} :
    ∀ {a b : Nat}, Reach g a b → Reach g b a →
      (∀ x, MutualReach g a x → x ∉ V) → ReachAvoid g V a b := by
  intro a b hab
  induction hab using Relation.ReflTransGen.head_induction_on with
  | refl =>
    intro _ _
    exact Relation.ReflTransGen.refl
  | head hac hcb ih =>
    rename_i a' c
    intro hba' hV
    have hca' : Reach g c a' := hcb.trans hba'
    have hmac : MutualReach g a' c := ⟨Relation.ReflTransGen.single hac, hca'⟩
    have hra : ReachAvoid g V c b := by
      refine ih (hba'.trans (Relation.ReflTransGen.single hac)) ?_
      intro x hx
      exact hV x (hmac.trans hx)
    exact Relation.ReflTransGen.head ⟨hac, hV c hmac⟩ hra

/-! ## Index bookkeeping over the finish order -/

theorem idx_lt_of_mem_prefix {ord P R : List Nat} (h : ord = P ++ R) {x : Nat}
    (hx : x ∈ P) : ord.indexOf x < P.length := by
  subst h
  rw [List.indexOf_append_of_mem hx]
  exact List.indexOf_lt_length.2 hx

theorem idx_ge_of_not_mem_prefix {ord P R : List Nat} (h : ord = P ++ R) {x : Nat}
    (hx : x ∉ P) : P.length ≤ ord.indexOf x := by
  subst h
  rw [List.indexOf_append_of_not_mem hx]
  omega

theorem idx_of_shape {P R : List Nat} {d : Nat} (hd : d ∉ P) :
    (P ++ d :: R).indexOf d = P.length := by
  rw [List.indexOf_append_of_not_mem hd, List.indexOf_cons_self]
  exact Nat.add_zero _

end scc

/-! ## The finish-order property of the first pass

For an edge `u → w`, every member of the SCC of `w` finishes no later than
some member of the SCC of `u`.  This is proved by locating the first member
`d` of `SCC(u) ∪ SCC(w)` that the first pass discovers and analysing the
completed DFS call rooted at `d`. -/

namespace scc

variable {g t : Graph}

theorem firstOrder_scc_le_edge {u w : Nat} (hu : u < g.length) (he : Edge g u w) :
    ∀ y, MutualReach g w y →
      ∃ z, MutualReach g u z ∧
        (firstPassSt g).order.indexOf y ≤ (firstPassSt g).order.indexOf z := by
  intro y hwy
  by_cases huw : MutualReach g u w
  · exact ⟨y, huw.trans hwy, le_refl _⟩
  set ord := (firstPassSt g).order with hordd
  have hord2 : ord = (firstLoop g g.length (List.range g.length) ⟨∅, []⟩).order := rfl
  set U : Set Nat := {x | MutualReach g u x ∨ MutualReach g w x} with hUdef
  have hUu : u ∈ U := Or.inl (MutualReach.refl u)
  have hUw : w ∈ U := Or.inr (MutualReach.refl w)
  have htouch : ∃ x ∈ U, x ∈ (firstLoop g g.length (List.range g.length)
      (⟨∅, []⟩ : St1)).visited := by
    refine ⟨u, hUu, ?_⟩
    show u ∈ (firstPassFuel g g.length).visited
    rw [(firstPass_props (g := g) (le_refl g.length)).2.2]
    exact Finset.mem_range.2 hu
  obtain ⟨d, f', s', hdU, hdn, hU', hsuff', hords', hpre, _⟩ :=
    firstLoop_split (le_refl g.length) (List.range g.length) ⟨∅, []⟩ U
      (fun v hv => List.mem_range.1 hv)
      (fun x hx => absurd hx (List.not_mem_nil x))
      (fun x _ => Finset.not_mem_empty x) htouch
  have hdns' : d ∉ s'.visited := hU' d hdU
  have hf'pos : 1 ≤ f' := hsuff'.one_le hdn hdns'
  obtain ⟨f'', rfl⟩ : ∃ f'', f' = f'' + 1 := ⟨f' - 1, by omega⟩
  obtain ⟨L0, hshape, hdL0⟩ := dfsFirstPass_order_shape (g := g) f'' d s'
  obtain ⟨L, hLo, hLn, hLm⟩ := dfsFirstPass_delta (f'' + 1) d s' hdns'
  have hLL0 : L = L0 ++ [d] := by
    refine List.append_cancel_left (?_ : s'.order ++ L = s'.order ++ (L0 ++ [d]))
    rw [← hLo, hshape, List.append_assoc]
  have hdords : d ∉ s'.order := fun hmem => hdns' (hords' d hmem)
  have hdP : d ∉ s'.order ++ L0 := by
    rw [List.mem_append]
    rintro (h | h)
    · exact hdords h
    · exact hdL0 h
  obtain ⟨rest, hrest⟩ := hpre
  have hordeq : ord = (s'.order ++ L0) ++ (d :: rest) := by
    rw [hord2, ← hrest, hshape]
    simp [List.append_assoc]
  have hidxd : ord.indexOf d = (s'.order ++ L0).length := by
    rw [hordeq]
    exact idx_of_shape hdP
  have hwns' : w ∉ s'.visited := hU' w hUw
  rcases hdU with hdu | hdw
  · -- the first discovered member `d` lies in the SCC of `u`
    have hyU : y ∈ U := Or.inr hwy
    have hray : ReachAvoid g s'.visited d y := by
      have h1 : ReachAvoid g s'.visited d u :=
        reachAvoid_of_mutual hdu.2 hdu.1 (fun x hx => hU' x (Or.inl (hdu.trans hx)))
      have h2 : ReachAvoid g s'.visited d w :=
        Relation.ReflTransGen.tail h1 ⟨he, hwns'⟩
      have h3 : ReachAvoid g s'.visited w y :=
        reachAvoid_of_mutual hwy.1 hwy.2 (fun x hx => hU' x (Or.inr hx))
      exact h2.trans h3
    have hyD : y ∈ (dfsFirstPass g (f'' + 1) d s').visited :=
      dfsFirstPass_complete hdn hdns' hsuff' y hray
    have hyL : y ∈ L := (hLm y).2 ⟨hyD, hU' y hyU⟩
    have hyne : y ≠ d := by
      intro h
      exact huw (hdu.trans (h ▸ hwy).symm)
    have hyL0 : y ∈ L0 := by
      rw [hLL0, List.mem_append] at hyL
      rcases hyL with h | h
      · exact h
      · rw [List.mem_singleton] at h
        exact absurd h hyne
    have hyP : ord.indexOf y < (s'.order ++ L0).length :=
      idx_lt_of_mem_prefix hordeq (List.mem_append.2 (Or.inr hyL0))
    exact ⟨d, hdu, by omega⟩
  · -- the first discovered member `d` lies in the SCC of `w`
    have hyU : y ∈ U := Or.inr hwy
    have hmdy : MutualReach g d y := hdw.symm.trans hwy
    have hray : ReachAvoid g s'.visited d y :=
      reachAvoid_of_mutual hmdy.1 hmdy.2 (fun x hx => hU' x (Or.inr (hdw.trans hx)))
    have hyD : y ∈ (dfsFirstPass g (f'' + 1) d s').visited :=
      dfsFirstPass_complete hdn hdns' hsuff' y hray
    have hyL : y ∈ L := (hLm y).2 ⟨hyD, hU' y hyU⟩
    have hidxy : ord.indexOf y ≤ ord.indexOf d := by
      rw [hLL0, List.mem_append] at hyL
      rcases hyL with h | h
      · have := idx_lt_of_mem_prefix hordeq (List.mem_append.2 (Or.inr h))
        omega
      · rw [List.mem_singleton] at h
        rw [h]
    have huD : u ∉ (dfsFirstPass g (f'' + 1) d s').visited := by
      intro hmem
      rcases dfsFirstPass_sound (f'' + 1) d s' u hmem with hs | hra
      · exact hU' u hUu hs
      · exact huw ⟨Relation.ReflTransGen.single he,
          hdw.1.trans (reach_of_reachAvoid hra)⟩
    have huord : u ∉ (dfsFirstPass g (f'' + 1) d s').order := by
      intro hmem
      rw [hLo, List.mem_append] at hmem
      rcases hmem with h | h
      · exact hU' u hUu (hords' u h)
      · exact huD ((hLm u).1 h).1
    have hidxu : (dfsFirstPass g (f'' + 1) d s').order.length ≤ ord.indexOf u := by
      refine idx_ge_of_not_mem_prefix (R := rest) ?_ huord
      rw [hord2, ← hrest]
    have hlen : ord.indexOf d < (dfsFirstPass g (f'' + 1) d s').order.length := by
      rw [hshape, hidxd]
      simp [List.length_append]
    exact ⟨u, MutualReach.refl u, by omega⟩

theorem firstOrder_scc_le_reach {u w : Nat} (hu : u < g.length) (hr : Reach g u w) :
    ∀ y, MutualReach g w y →
      ∃ z, MutualReach g u z ∧
        (firstPassSt g).order.indexOf y ≤ (firstPassSt g).order.indexOf z := by
  induction hr with
  | refl => exact fun y hy => ⟨y, hy, le_refl _⟩
  | tail hab hbc ih =>
    rename_i m w'
    intro y hwy
    have hm : m < g.length := by
      rcases Reach.eq_or_lt hab with rfl | h
      · exact hu
      · exact h
    obtain ⟨z1, hmz1, hyz1⟩ := firstOrder_scc_le_edge hm hbc y hwy
    obtain ⟨z, huz, hz1z⟩ := ih z1 hmz1
    exact ⟨z, huz, hyz1.trans hz1z⟩

end scc

/-! ## The second pass emits exactly the strongly connected components -/

namespace scc

variable {g t : Graph}

theorem secondPassFuel_nil_eq (fuel : Nat) (acc : Finset Nat × List (List Nat)) :
    secondPassFuel t fuel [] acc = acc := rfl

theorem secondPassFuel_cons_eq (fuel r : Nat) (rs : List Nat)
    (acc : Finset Nat × List (List Nat)) :
    secondPassFuel t fuel (r :: rs) acc =
      secondPassFuel t fuel rs (sccStep t fuel acc r) := rfl

/-- In the second pass, every node with a strictly larger finish index than
the current root has already been processed. -/
theorem mem_done_of_idx_gt {r : Nat} {done rem : List Nat}
    (hsplit : (firstPassSt g).order.reverse = done ++ r :: rem) {z : Nat}
    (hz : z ∈ (firstPassSt g).order)
    (hgt : (firstPassSt g).order.indexOf r < (firstPassSt g).order.indexOf z) :
    z ∈ done := by
  set ord := (firstPassSt g).order with hordd
  have hnd : ord.Nodup := firstPass_order_nodup (le_refl g.length)
  have hordeq : ord = rem.reverse ++ r :: done.reverse := by
    have : ord.reverse.reverse = (done ++ r :: rem).reverse := by rw [hsplit]
    rw [List.reverse_reverse] at this
    rw [this]
    simp
  have hndsplit := hordeq ▸ hnd
  have hrrem : r ∉ rem.reverse := by
    rw [List.nodup_append] at hndsplit
    intro h
    exact hndsplit.2.2 h (List.mem_cons_self r done.reverse)
  have hidxr : ord.indexOf r = rem.reverse.length := by
    rw [hordeq]
    exact idx_of_shape hrrem
  have hzord : z ∈ rem.reverse ∨ z = r ∨ z ∈ done.reverse := by
    rw [hordeq] at hz
    rcases List.mem_append.1 hz with h | h
    · exact Or.inl h
    · rcases List.mem_cons.1 h with h | h
      · exact Or.inr (Or.inl h)
      · exact Or.inr (Or.inr h)
  rcases hzord with h | h | h
  · have := idx_lt_of_mem_prefix (P := rem.reverse) (R := r :: done.reverse) hordeq h
    omega
  · subst h
    omega
  · exact List.mem_reverse.1 h

/-- Invariant of the second-pass loop: `visited` is the union of the emitted
components, and every emitted component is exactly one SCC. -/
theorem secondLoop_inv :
    ∀ (rem done : List Nat), (firstPassSt g).order.reverse = done ++ rem →
    ∀ (vis : Finset Nat) (comps : List (List Nat)),
      (∀ x, x ∈ vis ↔ ∃ C ∈ comps, x ∈ C) →
      (∀ C ∈ comps, ∃ rep, rep < g.length ∧ ∀ y, (y ∈ C ↔ MutualReach g rep y)) →
      (∀ x ∈ done, x ∈ vis) →
      vis ⊆ Finset.range g.length →
      (∀ x, x ∈ (secondPassFuel (transposeOf g) g.length rem (vis, comps)).1 ↔
        ∃ C ∈ (secondPassFuel (transposeOf g) g.length rem (vis, comps)).2, x ∈ C) ∧
      (∀ C ∈ (secondPassFuel (transposeOf g) g.length rem (vis, comps)).2,
        ∃ rep, rep < g.length ∧ ∀ y, (y ∈ C ↔ MutualReach g rep y)) ∧
      (∀ x ∈ done ++ rem, x ∈ (secondPassFuel (transposeOf g) g.length rem (vis, comps)).1) ∧
      (secondPassFuel (transposeOf g) g.length rem (vis, comps)).1 ⊆
        Finset.range g.length ∧
      comps <+: (secondPassFuel (transposeOf g) g.length rem (vis, comps)).2 := by
  intro rem
  induction rem with
  | nil =>
    intro done _ vis comps h1 h2 h3 h4
    rw [secondPassFuel_nil_eq]
    refine ⟨h1, h2, ?_, h4, List.prefix_refl _⟩
    intro x hx
    rw [List.append_nil] at hx
    exact h3 x hx
  | cons r rem ihr =>
    intro done hsplit vis comps h1 h2 h3 h4
    rw [secondPassFuel_cons_eq]
    have hsplit' : (firstPassSt g).order.reverse = (done ++ [r]) ++ rem := by
      rw [hsplit, List.append_assoc]
      rfl
    have hrord : r ∈ (firstPassSt g).order := by
      rw [← List.mem_reverse, hsplit]
      exact List.mem_append.2 (Or.inr (List.mem_cons_self r rem))
    have hrn : r < g.length := (firstPass_order_mem (le_refl g.length) r).1 hrord
    have h1len : 1 ≤ g.length := by omega
    have htlen : (transposeOf g).length = g.length := transposeOf_length
    have hclosed : ∀ x y, x ∈ vis → MutualReach g x y → y ∈ vis := by
      intro x y hx hxy
      obtain ⟨C, hC, hxC⟩ := (h1 x).1 hx
      obtain ⟨rep, _, hrep⟩ := h2 C hC
      exact (h1 y).2 ⟨C, hC, (hrep y).2 (((hrep x).1 hxC).trans hxy)⟩
    by_cases hrv : r ∉ vis
    · simp only [sccStep]
      rw [if_pos hrv]
      set s2 := dfsSecondPass (transposeOf g) g.length r ⟨vis, []⟩ with hs2
      obtain ⟨L, hLc, hLn, hLm⟩ :=
        dfsSecondPass_delta (t := transposeOf g) g.length r ⟨vis, []⟩ hrv
      have hLcomp : s2.comp = L := by
        rw [← hs2] at hLc
        simpa using hLc
      have hsuffv : Suff (transposeOf g) g.length vis := by
        unfold Suff
        rw [htlen]
        exact Suff.of_le (le_refl g.length)
      -- the heart: the newly visited set is exactly the SCC of `r`
      have hkey : ∀ y, (y ∈ s2.visited ∧ y ∉ vis) ↔ MutualReach g r y := by
        intro y
        constructor
        · rintro ⟨hyv, hynv⟩
          rcases dfsSecondPass_sound g.length r ⟨vis, []⟩ y hyv with h | hra
          · exact absurd h hynv
          · have hyr : Reach g y r := (Reach_transposeOf r y).1 (reach_of_reachAvoid hra)
            have hyn : y < g.length := by
              have := dfsSecondPass_visited_range (t := transposeOf g) g.length r
                ⟨vis, []⟩ (htlen ▸ hrn) hyv
              rcases Finset.mem_union.1 this with h | h
              · exact absurd h hynv
              · rw [htlen] at h
                exact Finset.mem_range.1 h
            obtain ⟨z, hyz, hidx⟩ :=
              firstOrder_scc_le_reach hyn hyr r (MutualReach.refl r)
            by_cases hzr : z = r
            · exact (hzr ▸ hyz).symm
            · exfalso
              have hzn : z < g.length := by
                rcases Reach.eq_or_lt hyz.1 with rfl | h
                · exact hyn
                · exact h
              have hzord : z ∈ (firstPassSt g).order :=
                (firstPass_order_mem (le_refl g.length) z).2 hzn
              have hgt : (firstPassSt g).order.indexOf r <
                  (firstPassSt g).order.indexOf z := by
                rcases Nat.lt_or_ge ((firstPassSt g).order.indexOf r)
                    ((firstPassSt g).order.indexOf z) with h | h
                · exact h
                · exfalso
                  have heq : (firstPassSt g).order.indexOf z =
                      (firstPassSt g).order.indexOf r := by omega
                  exact hzr ((List.indexOf_inj hzord hrord).1 heq)
              have hzdone : z ∈ done := mem_done_of_idx_gt hsplit hzord hgt
              have hzvis : z ∈ vis := h3 z hzdone
              exact hynv (hclosed z y hzvis hyz.symm)
        · intro hry
          have hmt : MutualReach (transposeOf g) r y :=
            ⟨(Reach_transposeOf r y).2 hry.2, (Reach_transposeOf y r).2 hry.1⟩
          have hynv : y ∉ vis := by
            intro hyvis
            exact hrv (hclosed y r hyvis hry.symm)
          refine ⟨?_, hynv⟩
          have hra : ReachAvoid (transposeOf g) vis r y := by
            refine reachAvoid_of_mutual hmt.1 hmt.2 ?_
            intro x hx
            have hgx : MutualReach g r x :=
              ⟨(Reach_transposeOf x r).1 hx.2, (Reach_transposeOf r x).1 hx.1⟩
            intro hxvis
            exact hrv (hclosed x r hxvis hgx.symm)
          exact dfsSecondPass_complete (htlen ▸ hrn) hrv hsuffv y hra
      have hLiff : ∀ y, y ∈ s2.comp ↔ MutualReach g r y := by
        intro y
        rw [hLcomp]
        rw [hLm y]
        exact hkey y
      have hmono : vis ⊆ s2.visited :=
        dfsSecondPass_visited_mono g.length r ⟨vis, []⟩
      have hvis2 : ∀ x, x ∈ s2.visited ↔ x ∈ vis ∨ x ∈ s2.comp := by
        intro x
        constructor
        · intro hx
          by_cases hxv : x ∈ vis
          · exact Or.inl hxv
          · exact Or.inr ((hLiff x).2 ((hkey x).1 ⟨hx, hxv⟩))
        · rintro (hx | hx)
          · exact hmono hx
          · rw [hLcomp] at hx
            exact ((hLm x).1 hx).1
      have hinv1 : ∀ x, x ∈ s2.visited ↔ ∃ C ∈ comps ++ [s2.comp], x ∈ C := by
        intro x
        rw [hvis2 x, h1 x]
        constructor
        · rintro (⟨C, hC, hxC⟩ | hx)
          · exact ⟨C, List.mem_append.2 (Or.inl hC), hxC⟩
          · exact ⟨s2.comp, List.mem_append.2 (Or.inr (List.mem_singleton.2 rfl)), hx⟩
        · rintro ⟨C, hC, hxC⟩
          rcases List.mem_append.1 hC with hC | hC
          · exact Or.inl ⟨C, hC, hxC⟩
          · rw [List.mem_singleton] at hC
            exact Or.inr (hC ▸ hxC)
      have hinv2 : ∀ C ∈ comps ++ [s2.comp],
          ∃ rep, rep < g.length ∧ ∀ y, (y ∈ C ↔ MutualReach g rep y) := by
        intro C hC
        rcases List.mem_append.1 hC with hC | hC
        · exact h2 C hC
        · rw [List.mem_singleton] at hC
          exact ⟨r, hrn, fun y => hC ▸ hLiff y⟩
      have hinv3 : ∀ x ∈ done ++ [r], x ∈ s2.visited := by
        intro x hx
        rcases List.mem_append.1 hx with hx | hx
        · exact hmono (h3 x hx)
        · rw [List.mem_singleton] at hx
          exact hx ▸ dfsSecondPass_marks_root h1len r ⟨vis, []⟩
      have hinv4 : s2.visited ⊆ Finset.range g.length := by
        refine (dfsSecondPass_visited_range g.length r ⟨vis, []⟩ (htlen ▸ hrn)).trans ?_
        rw [htlen]
        exact Finset.union_subset h4 (Finset.Subset.refl _)
      obtain ⟨j1, j2, j3, j4, j5⟩ :=
        ihr (done ++ [r]) hsplit' s2.visited (comps ++ [s2.comp]) hinv1 hinv2 hinv3 hinv4
      refine ⟨j1, j2, ?_, j4, (List.prefix_append comps [s2.comp]).trans j5⟩
      intro x hx
      refine j3 x ?_
      rw [List.append_assoc]
      simpa using hx
    · simp only [sccStep]
      rw [if_neg hrv]
      obtain ⟨j1, j2, j3, j4, j5⟩ := ihr (done ++ [r]) hsplit' vis comps h1 h2
        (by
          intro x hx
          rcases List.mem_append.1 hx with h | h
          · exact h3 x h
          · rw [List.mem_singleton] at h
            push_neg at hrv
            exact h ▸ hrv) h4
      refine ⟨j1, j2, ?_, j4, j5⟩
      intro x hx
      refine j3 x ?_
      rw [List.append_assoc]
      simpa using hx

end scc

namespace scc

variable {g t : Graph}

/-- Structural invariants of the second-pass loop: component members are
visited, components are duplicate-free and pairwise disjoint, each component
is its root (taken from the finish order) followed by the rest of its DFS
tree, and the roots are consumed in the order of the worklist. -/
theorem secondLoop_struct :
    ∀ (rem done : List Nat), (firstPassSt g).order.reverse = done ++ rem →
    ∀ (vis : Finset Nat) (comps : List (List Nat)),
      (∀ C ∈ comps, ∀ x ∈ C, x ∈ vis) →
      (∀ C ∈ comps, C.Nodup) →
      List.Pairwise (fun C D => ∀ x, x ∈ C → x ∉ D) comps →
      (∀ C ∈ comps, (∃ rest, C = C.headI :: rest) ∧ C.headI ∈ (firstPassSt g).order) →
      List.Sublist (comps.map (fun C => C.headI)) done →
      (∀ C ∈ (secondPassFuel (transposeOf g) g.length rem (vis, comps)).2, ∀ x ∈ C,
        x ∈ (secondPassFuel (transposeOf g) g.length rem (vis, comps)).1) ∧
      (∀ C ∈ (secondPassFuel (transposeOf g) g.length rem (vis, comps)).2, C.Nodup) ∧
      List.Pairwise (fun C D => ∀ x, x ∈ C → x ∉ D)
        (secondPassFuel (transposeOf g) g.length rem (vis, comps)).2 ∧
      (∀ C ∈ (secondPassFuel (transposeOf g) g.length rem (vis, comps)).2,
        (∃ rest, C = C.headI :: rest) ∧ C.headI ∈ (firstPassSt g).order) ∧
      List.Sublist ((secondPassFuel (transposeOf g) g.length rem (vis, comps)).2.map
        (fun C => C.headI)) (done ++ rem) := by
  intro rem
  induction rem with
  | nil =>
    intro done _ vis comps hmem hnd hpw hhead hsub
    rw [secondPassFuel_nil_eq]
    exact ⟨fun C hC x hx => hmem C hC x hx, hnd, hpw, hhead,
      by rw [List.append_nil]; exact hsub⟩
  | cons r rem ihr =>
    intro done hsplit vis comps hmem hnd hpw hhead hsub
    rw [secondPassFuel_cons_eq]
    have hsplit' : (firstPassSt g).order.reverse = (done ++ [r]) ++ rem := by
      rw [hsplit, List.append_assoc]
      rfl
    have hrord : r ∈ (firstPassSt g).order := by
      rw [← List.mem_reverse, hsplit]
      exact List.mem_append.2 (Or.inr (List.mem_cons_self r rem))
    have hrn : r < g.length := (firstPass_order_mem (le_refl g.length) r).1 hrord
    have h1len : 1 ≤ g.length := by omega
    have happrm : done ++ r :: rem = (done ++ [r]) ++ rem := by
      rw [List.append_assoc]
      rfl
    by_cases hrv : r ∉ vis
    · simp only [sccStep]
      rw [if_pos hrv]
      set s2 := dfsSecondPass (transposeOf g) g.length r ⟨vis, []⟩ with hs2
      obtain ⟨L, hLc, hLn, hLm⟩ :=
        dfsSecondPass_delta (t := transposeOf g) g.length r ⟨vis, []⟩ hrv
      have hLcomp : s2.comp = L := by
        rw [← hs2] at hLc
        simpa using hLc
      have hmono : vis ⊆ s2.visited :=
        dfsSecondPass_visited_mono g.length r ⟨vis, []⟩
      have hnewvis : ∀ x ∈ s2.comp, x ∈ s2.visited := by
        intro x hx
        rw [hLcomp] at hx
        exact ((hLm x).1 hx).1
      have hnewnot : ∀ x ∈ s2.comp, x ∉ vis := by
        intro x hx
        rw [hLcomp] at hx
        exact ((hLm x).1 hx).2
      obtain ⟨f, hf⟩ : ∃ f, g.length = f + 1 := ⟨g.length - 1, by omega⟩
      obtain ⟨L1, hL1⟩ := dfsSecondPass_comp_shape (t := transposeOf g) f r ⟨vis, []⟩
      have hshape : s2.comp = r :: L1 := by
        rw [hs2, hf]
        simpa using hL1
      have hheadr : s2.comp.headI = r := by rw [hshape]; rfl
      rw [happrm]
      refine ihr (done ++ [r]) hsplit' s2.visited (comps ++ [s2.comp]) ?_ ?_ ?_ ?_ ?_
      · intro C hC x hx
        rcases List.mem_append.1 hC with hC | hC
        · exact hmono (hmem C hC x hx)
        · rw [List.mem_singleton] at hC
          exact hnewvis x (hC ▸ hx)
      · intro C hC
        rcases List.mem_append.1 hC with hC | hC
        · exact hnd C hC
        · rw [List.mem_singleton] at hC
          rw [hC, hLcomp]
          exact hLn
      · rw [List.pairwise_append]
        refine ⟨hpw, List.pairwise_singleton _ _, ?_⟩
        intro C hC D hD x hxC
        rw [List.mem_singleton] at hD
        subst hD
        intro hxD
        exact hnewnot x hxD (hmem C hC x hxC)
      · intro C hC
        rcases List.mem_append.1 hC with hC | hC
        · exact hhead C hC
        · rw [List.mem_singleton] at hC
          subst hC
          exact ⟨⟨L1, by rw [hheadr, hshape]⟩, hheadr ▸ hrord⟩
      · rw [List.map_append]
        refine List.Sublist.append hsub ?_
        simp [hheadr]
    · simp only [sccStep]
      rw [if_neg hrv]
      have := ihr (done ++ [r]) hsplit' vis comps hmem hnd hpw hhead
        (hsub.trans (List.sublist_append_left done [r]))
      rw [← happrm] at this
      exact this

/-- Top-level correctness of `findSCCs`: the components cover exactly the
node indices `0..n-1`, each component is exactly one SCC, components are
duplicate-free and pairwise disjoint, each component starts with its DFS
root, and roots are consumed in reverse finish order. -/
theorem findSCCs_main (g : Graph) :
    (∀ x, (∃ C ∈ findSCCs g, x ∈ C) ↔ x < g.length) ∧
    (∀ C ∈ findSCCs g, ∃ rep, rep < g.length ∧
      ∀ y, (y ∈ C ↔ MutualReach g rep y)) ∧
    (∀ C ∈ findSCCs g, C.Nodup) ∧
    List.Pairwise (fun C D => ∀ x, x ∈ C → x ∉ D) (findSCCs g) ∧
    (∀ C ∈ findSCCs g, (∃ rest, C = C.headI :: rest) ∧
      C.headI ∈ (firstPassSt g).order) ∧
    List.Sublist ((findSCCs g).map (fun C => C.headI))
      (firstPassSt g).order.reverse := by
  by_cases hn : g.length = 0
  · rw [findSCCs, if_pos hn]
    refine ⟨?_, ?_, ?_, ?_, ?_, ?_⟩
    · intro x
      simp [hn]
    · intro C hC
      exact absurd hC (List.not_mem_nil C)
    · intro C hC
      exact absurd hC (List.not_mem_nil C)
    · exact List.Pairwise.nil
    · intro C hC
      exact absurd hC (List.not_mem_nil C)
    · exact List.nil_sublist _
  · have hfind : findSCCs g =
        (secondPassFuel (transposeOf g) g.length ((firstPassSt g).order.reverse)
          (∅, [])).2 := by
      rw [findSCCs, if_neg hn]
    obtain ⟨j1, j2, j3, j4, _⟩ :=
      secondLoop_inv (g := g) ((firstPassSt g).order.reverse) []
        (by rw [List.nil_append]) ∅ []
        (by simp)
        (fun C hC => absurd hC (List.not_mem_nil C))
        (fun x hx => absurd hx (List.not_mem_nil x))
        (Finset.empty_subset _)
    obtain ⟨k1, k2, k3, k4, k5⟩ :=
      secondLoop_struct (g := g) ((firstPassSt g).order.reverse) []
        (by rw [List.nil_append]) ∅ []
        (fun C hC => absurd hC (List.not_mem_nil C))
        (fun C hC => absurd hC (List.not_mem_nil C))
        List.Pairwise.nil
        (fun C hC => absurd hC (List.not_mem_nil C))
        (List.nil_sublist _)
    rw [hfind]
    refine ⟨?_, j2, k2, k3, k4, by simpa using k5⟩
    intro x
    constructor
    · rintro ⟨C, hC, hxC⟩
      have := (j1 x).2 ⟨C, hC, hxC⟩
      exact Finset.mem_range.1 (j4 this)
    · intro hx
      refine (j1 x).1 (j3 x ?_)
      rw [List.nil_append, List.mem_reverse]
      exact (firstPass_order_mem (le_refl g.length) x).2 hx

end scc

/-! ## Remaining helper lemmas for the claim statements -/

namespace scc

variable {g t : Graph}

theorem unique_comp_of_pairwise {comps : List (List Nat)}
    (hpw : List.Pairwise (fun C D => ∀ x, x ∈ C → x ∉ D) comps)
    {x : Nat} {C1 C2 : List Nat} (h1 : C1 ∈ comps) (h2 : C2 ∈ comps)
    (hx1 : x ∈ C1) (hx2 : x ∈ C2) : C1 = C2 := by
  by_contra hne
  have hsymm : Symmetric (fun C D : List Nat => (∀ x, x ∈ C → x ∉ D) ∨ C = D) := by
    intro C D h
    rcases h with h | h
    · left
      intro y hyD hyC
      exact h y hyC hyD
    · exact Or.inr h.symm
  have hpw' : List.Pairwise (fun C D : List Nat => (∀ x, x ∈ C → x ∉ D) ∨ C = D) comps :=
    hpw.imp (fun h => Or.inl h)
  have := hpw'.forall hsymm h1 h2 hne
  rcases this with h | h
  · exact h x hx1 hx2
  · exact hne h

theorem pairwise_indexOf_lt : ∀ (l : List Nat), l.Nodup →
    List.Pairwise (fun a b => l.indexOf a < l.indexOf b) l := by
  intro l
  induction l with
  | nil => exact fun _ => List.Pairwise.nil
  | cons a l ihl =>
    intro hnd
    rw [List.pairwise_cons]
    obtain ⟨hna, hndl⟩ := List.nodup_cons.1 hnd
    constructor
    · intro b hb
      have hba : b ≠ a := fun h => hna (h ▸ hb)
      rw [List.indexOf_cons_self, List.indexOf_cons_ne l (Ne.symm hba)]
      omega
    · refine (ihl hndl).imp_of_mem ?_
      intro x y hx hy hxy
      have hxa : x ≠ a := fun h => hna (h ▸ hx)
      have hya : y ≠ a := fun h => hna (h ▸ hy)
      rw [List.indexOf_cons_ne l (Ne.symm hxa), List.indexOf_cons_ne l (Ne.symm hya)]
      omega

end scc

/-! ## The claims -/

namespace scc

/-- C1: two node indices `u, v` in `[0, n)` appear in the same component of
`findSCCs g` if and only if `u` is reachable from `v` and `v` is reachable
from `u` through in-range directed edges of `g` (so each component is
exactly a maximal mutually-reachable set, and no two components could be
merged without breaking mutual reachability). -/
theorem claim_C1 (g : Graph) (u v : Nat) (hu : u < g.length) (hv : v < g.length) :
    (∃ C ∈ findSCCs g, u ∈ C ∧ v ∈ C) ↔ (Reach g u v ∧ Reach g v u) := by
  obtain ⟨j1, j2, _, _, _, _⟩ := findSCCs_main g
  constructor
  · rintro ⟨C, hC, huC, hvC⟩
    obtain ⟨rep, _, hrep⟩ := j2 C hC
    exact (((hrep u).1 huC).symm.trans ((hrep v).1 hvC) : MutualReach g u v)
  · intro huv
    obtain ⟨C, hC, huC⟩ := (j1 u).2 hu
    obtain ⟨rep, _, hrep⟩ := j2 C hC
    exact ⟨C, hC, huC, (hrep v).2 (((hrep u).1 huC).trans (huv : MutualReach g u v))⟩

theorem claim_C1_witness :
    (∃ C ∈ findSCCs [[1], [2], [0]], 0 ∈ C ∧ 1 ∈ C) ↔
      (Reach [[1], [2], [0]] 0 1 ∧ Reach [[1], [2], [0]] 1 0) :=
  claim_C1 [[1], [2], [0]] 0 1 (by decide) (by decide)

/-- C2: `findSCCs g` partitions `[0, n)`: components are pairwise disjoint,
their union is exactly the set of node indices below `n`, and every such
index lies in exactly one component. -/
theorem claim_C2 (g : Graph) :
    List.Pairwise (fun C D => ∀ x, x ∈ C → x ∉ D) (findSCCs g) ∧
    (∀ x, x < g.length ↔ ∃ C ∈ findSCCs g, x ∈ C) ∧
    (∀ x, x < g.length → ∃! C, C ∈ findSCCs g ∧ x ∈ C) := by
  obtain ⟨j1, _, _, j4, _, _⟩ := findSCCs_main g
  refine ⟨j4, fun x => (j1 x).symm, ?_⟩
  intro x hx
  obtain ⟨C, hC, hxC⟩ := (j1 x).2 hx
  refine ⟨C, ⟨hC, hxC⟩, ?_⟩
  rintro D ⟨hD, hxD⟩
  exact unique_comp_of_pairwise j4 hD hC hxD hxC

theorem claim_C2_witness :
    (1 < List.length ([[1], [0], [3], [2]] : Graph) ↔
      ∃ C ∈ findSCCs [[1], [0], [3], [2]], 1 ∈ C) ∧
    (∃! C, C ∈ findSCCs [[1], [0], [3], [2]] ∧ 2 ∈ C) :=
  ⟨(claim_C2 [[1], [0], [3], [2]]).2.1 1,
    (claim_C2 [[1], [0], [3], [2]]).2.2 2 (by decide)⟩

/-- C3: `countSCCs` is the length of `findSCCs`; the empty graph yields the
empty component sequence and count `0`; a nonempty graph yields between `1`
and `n` components. -/
theorem claim_C3 (g : Graph) :
    countSCCs g = (findSCCs g).length ∧
    (g.length = 0 → findSCCs g = [] ∧ countSCCs g = 0) ∧
    (0 < g.length → 1 ≤ countSCCs g ∧ countSCCs g ≤ g.length) := by
  obtain ⟨j1, _, _, _, _, j6⟩ := findSCCs_main g
  refine ⟨rfl, ?_, ?_⟩
  · intro hn
    have : findSCCs g = [] := by rw [findSCCs, if_pos hn]
    exact ⟨this, by rw [countSCCs, this]; rfl⟩
  · intro hn
    constructor
    · obtain ⟨C, hC, _⟩ := (j1 0).2 hn
      have hne : findSCCs g ≠ [] := by
        intro h
        rw [h] at hC
        exact absurd hC (List.not_mem_nil C)
      show 1 ≤ (findSCCs g).length
      have := List.length_pos.2 hne
      omega
    · have hle := j6.length_le
      rw [List.length_map, List.length_reverse] at hle
      have hol : (firstPassSt g).order.length = g.length :=
        firstPass_order_length (le_refl g.length)
      show (findSCCs g).length ≤ g.length
      omega

theorem claim_C3_witness :
    (countSCCs [[0]] = (findSCCs [[0]]).length) ∧
    (findSCCs ([] : Graph) = [] ∧ countSCCs ([] : Graph) = 0) ∧
    (1 ≤ countSCCs [[0]] ∧ countSCCs [[0]] ≤ 1) :=
  ⟨(claim_C3 [[0]]).1, (claim_C3 ([] : Graph)).2.1 rfl,
    (claim_C3 [[0]]).2.2 (by decide)⟩

/-- C4: the finish-order pass (ascending roots `0..n-1`, DFS into in-range
unvisited out-neighbors, post-order append) produces an `order` that is a
permutation of `[0, n)`. -/
theorem claim_C4 (g : Graph) :
    (firstPassSt g).order.Perm (List.range g.length) :=
  firstPass_order_perm (le_refl g.length)

/-- C5: the transpose built inside `findSCCs` has exactly `n` node slots;
it contains edge `(w → v)` exactly once per occurrence of `(v → w)` in `g`
with `w` in `[0, n)`; and every one of its entries is an in-range node
index, so out-of-range occurrences contribute nothing. -/
theorem claim_C5 (g : Graph) :
    (transposeOf g).length = g.length ∧
    (∀ v w, v < g.length → w < g.length →
      (adj (transposeOf g) w).count ((v : Nat) : Int) =
        (adj g v).count ((w : Nat) : Int)) ∧
    (∀ a : Nat, ∀ x ∈ adj (transposeOf g) a, ∃ v, v < g.length ∧ x = (v : Int)) :=
  ⟨transposeOf_length, fun _ _ hv hw => transposeOf_count hv hw,
    fun a x hx => transposeOf_entries a x hx⟩

theorem claim_C5_witness :
    ((transposeOf [[1, 2], [0, 3], [0], [1, 4], [3]]).length = 5) ∧
    ((adj (transposeOf [[1, 2], [0, 3], [0], [1, 4], [3]]) 1).count 0 =
      (adj [[1, 2], [0, 3], [0], [1, 4], [3]] 0).count 1) ∧
    (∃ v, v < List.length ([[1, 2], [0, 3], [0], [1, 4], [3]] : Graph) ∧
      (1 : Int) = (v : Int)) :=
  ⟨(claim_C5 [[1, 2], [0, 3], [0], [1, 4], [3]]).1,
    (claim_C5 [[1, 2], [0, 3], [0], [1, 4], [3]]).2.1 0 1 (by decide) (by decide),
    (claim_C5 [[1, 2], [0, 3], [0], [1, 4], [3]]).2.2 0 1 (by decide)⟩

/-- C6: components are emitted in the order in which their roots are taken
from the finish-order sequence iterated last-to-first: the component heads
form a subsequence of `order.reverse`, hence successive components have
strictly decreasing first-pass finish indices of their roots. -/
theorem claim_C6 (g : Graph) :
    List.Sublist ((findSCCs g).map (fun C => C.headI))
      (firstPassSt g).order.reverse ∧
    List.Pairwise
      (fun a b => (firstPassSt g).order.indexOf b < (firstPassSt g).order.indexOf a)
      ((findSCCs g).map (fun C => C.headI)) := by
  obtain ⟨_, _, _, _, _, j6⟩ := findSCCs_main g
  refine ⟨j6, ?_⟩
  refine List.Pairwise.sublist j6 ?_
  rw [List.pairwise_reverse]
  exact pairwise_indexOf_lt _ (firstPass_order_nodup (le_refl g.length))

/-- C9: `findSCCs` is deterministic: equal input graphs produce identical
ordered component sequences. -/
theorem claim_C9 (g1 g2 : Graph) (h : g1 = g2) : findSCCs g1 = findSCCs g2 := by
  rw [h]

theorem claim_C9_witness :
    findSCCs [[1], [2], [0]] = findSCCs [[1], [2], [0]] :=
  claim_C9 [[1], [2], [0]] [[1], [2], [0]] rfl

/-- C10: every component of `findSCCs g` is non-empty; its first element is
the root from which its second-pass DFS was started (pre-order), a node of
the finish-order sequence that was not visited before — in particular the
head of a later component never lies in an earlier component. -/
theorem claim_C10 (g : Graph) :
    (∀ C ∈ findSCCs g, C ≠ [] ∧ C = C.headI :: C.tail ∧
      C.headI ∈ (firstPassSt g).order) ∧
    List.Pairwise (fun C D => D.headI ∉ C) (findSCCs g) := by
  obtain ⟨_, _, _, j4, j5, _⟩ := findSCCs_main g
  constructor
  · intro C hC
    obtain ⟨⟨rest, hrest⟩, hmem⟩ := j5 C hC
    refine ⟨?_, ?_, hmem⟩
    · rw [hrest]
      exact List.cons_ne_nil _ _
    · rw [hrest]
      rfl
  · refine j4.imp_of_mem ?_
    intro C D hC hD hdisj hin
    obtain ⟨⟨rest, hrest⟩, _⟩ := j5 D hD
    have : D.headI ∈ D := by
      rw [hrest]
      exact List.mem_cons_self _ _
    exact hdisj D.headI hin this

theorem claim_C10_witness :
    ([0, 2, 1] ≠ ([] : List Nat) ∧
      [0, 2, 1] = ([0, 2, 1] : List Nat).headI :: ([0, 2, 1] : List Nat).tail ∧
      ([0, 2, 1] : List Nat).headI ∈ (firstPassSt [[1], [2], [0]]).order) :=
  (claim_C10 [[1], [2], [0]]).1 [0, 2, 1] (by decide)

end scc

/-! ## Dropping the out-of-range entries does not change the result (C7) -/

namespace scc

variable {g t : Graph}

theorem cleanGraph_length : (cleanGraph g).length = g.length := by
  rw [cleanGraph, List.length_map]

theorem adj_cleanGraph (v : Nat) :
    adj (cleanGraph g) v = (adj g v).filter (fun w => decide (inRange g.length w)) := by
  unfold adj cleanGraph
  rw [List.getD_eq_getElem?_getD, List.getD_eq_getElem?_getD, List.getElem?_map]
  cases hg : g[v]? with
  | none => rfl
  | some l => rfl

theorem dfsFirstPass_cleanGraph :
    ∀ (fuel v : Nat) (s : St1),
      dfsFirstPass (cleanGraph g) fuel v s = dfsFirstPass g fuel v s := by
  intro fuel
  induction fuel with
  | zero => intro v s; rfl
  | succ f ih =>
    intro v s
    rw [dfsFirstPass_succ_eq, dfsFirstPass_succ_eq, adj_cleanGraph]
    have hlist : ∀ (ws : List Int) (u : St1),
        dfsFirstList (cleanGraph g) f
            (ws.filter (fun w => decide (inRange g.length w))) u =
          dfsFirstList g f ws u := by
      intro ws
      induction ws with
      | nil => intro u; rfl
      | cons w ws ihw =>
        intro u
        by_cases hw : inRange g.length w
        · rw [List.filter_cons_of_pos (by simpa using hw), dfsFirstList_cons_eq,
            dfsFirstList_cons_eq]
          have hcond : (inRange (cleanGraph g).length w ∧ w.toNat ∉ u.visited) ↔
              (inRange g.length w ∧ w.toNat ∉ u.visited) := by
            rw [cleanGraph_length]
          by_cases hc : inRange g.length w ∧ w.toNat ∉ u.visited
          · rw [if_pos (hcond.2 hc), if_pos hc, ih, ihw]
          · rw [if_neg (fun h => hc (hcond.1 h)), if_neg hc, ihw]
        · rw [List.filter_cons_of_neg (by simpa using hw), dfsFirstList_cons_eq]
          have hcond : ¬ (inRange g.length w ∧ w.toNat ∉ u.visited) := fun h => hw h.1
          rw [if_neg hcond, ihw]
    rw [hlist]

theorem firstLoop_cleanGraph (fuel : Nat) :
    ∀ (rs : List Nat) (s : St1),
      firstLoop (cleanGraph g) fuel rs s = firstLoop g fuel rs s := by
  intro rs
  induction rs with
  | nil => intro s; rfl
  | cons v rs ihr =>
    intro s
    rw [firstLoop_cons_eq, firstLoop_cons_eq, dfsFirstPass_cleanGraph]
    by_cases hv : v ∉ s.visited
    · rw [if_pos hv, ihr]
    · rw [if_neg hv, ihr]

theorem transposeOf_cleanGraph : transposeOf (cleanGraph g) = transposeOf g := by
  rw [transposeOf, transposeOf, cleanGraph_length]
  have houter : ∀ (vs : List Nat) (acc : Graph),
      vs.foldl (fun tt (v : Nat) => (adj (cleanGraph g) v).foldl
        (fun t' w => if inRange g.length w then pushAt t' w.toNat (v : Int)
          else t') tt) acc =
      vs.foldl (fun tt (v : Nat) => (adj g v).foldl
        (fun t' w => if inRange g.length w then pushAt t' w.toNat (v : Int) else t') tt)
        acc := by
    intro vs
    induction vs with
    | nil => intro acc; rfl
    | cons v vs ihv =>
      intro acc
      rw [List.foldl_cons, List.foldl_cons, ihv, adj_cleanGraph]
      have hinner : ∀ (ws : List Int) (acc2 : Graph),
          (ws.filter (fun w => decide (inRange g.length w))).foldl
            (fun t' w => if inRange g.length w then
              pushAt t' w.toNat (v : Int) else t') acc2 =
          ws.foldl (fun t' w => if inRange g.length w then
            pushAt t' w.toNat (v : Int) else t') acc2 := by
        intro ws
        induction ws with
        | nil => intro acc2; rfl
        | cons w ws ihw =>
          intro acc2
          by_cases hw : inRange g.length w
          · rw [List.filter_cons_of_pos (by simpa using hw), List.foldl_cons,
              List.foldl_cons, if_pos hw, ihw]
          · rw [List.filter_cons_of_neg (by simpa using hw), List.foldl_cons]
            rw [if_neg hw, ihw]
      rw [hinner]
  exact houter (List.range g.length) (List.replicate g.length [])

/-- C7: out-of-range edge targets are silently dropped everywhere, so
`findSCCs` returns the same partition on `g` and on the graph in which every
out-of-range entry has been removed from the adjacency lists. -/
theorem claim_C7 (g : Graph) :
    (cleanGraph g).length = g.length ∧
    findSCCs (cleanGraph g) = findSCCs g ∧
    countSCCs (cleanGraph g) = countSCCs g := by
  have hmain : findSCCs (cleanGraph g) = findSCCs g := by
    rw [findSCCs, findSCCs, cleanGraph_length, transposeOf_cleanGraph]
    by_cases hn : g.length = 0
    · rw [if_pos hn, if_pos hn]
    · rw [if_neg hn, if_neg hn]
      have hfp : firstPassSt (cleanGraph g) = firstPassSt g := by
        rw [firstPassSt, firstPassSt, firstPassFuel, firstPassFuel,
          cleanGraph_length, firstLoop_cleanGraph]
      rw [hfp]
  exact ⟨cleanGraph_length, hmain, by rw [countSCCs, countSCCs, hmain]⟩

end scc

/-! ## Termination: fuel `n` suffices, and each node is visited once (C8) -/

namespace scc

variable {g t : Graph}

theorem card_sdiff_insert_lt {V : Finset Nat} {v : Nat} (hv : v < g.length)
    (hnv : v ∉ V) :
    (Finset.range g.length \ insert v V).card = (Finset.range g.length \ V).card - 1 := by
  have hmem : v ∈ Finset.range g.length \ V :=
    Finset.mem_sdiff.2 ⟨Finset.mem_range.2 hv, hnv⟩
  rw [Finset.sdiff_insert, Finset.card_erase_of_mem hmem]

theorem dfsFirstPass_fuel_irrel :
    ∀ (k f1 f2 v : Nat) (s : St1), v < g.length → v ∉ s.visited →
      (Finset.range g.length \ s.visited).card ≤ k → k ≤ f1 → k ≤ f2 →
      dfsFirstPass g f1 v s = dfsFirstPass g f2 v s := by
  intro k
  induction k with
  | zero =>
    intro f1 f2 v s hv hnv hcard _ _
    have : 0 < (Finset.range g.length \ s.visited).card :=
      Finset.card_pos.2 ⟨v, Finset.mem_sdiff.2 ⟨Finset.mem_range.2 hv, hnv⟩⟩
    omega
  | succ k ih =>
    intro f1 f2 v s hv hnv hcard hf1 hf2
    obtain ⟨a, rfl⟩ : ∃ a, f1 = a + 1 := ⟨f1 - 1, by omega⟩
    obtain ⟨b, rfl⟩ : ∃ b, f2 = b + 1 := ⟨f2 - 1, by omega⟩
    rw [dfsFirstPass_succ_eq, dfsFirstPass_succ_eq]
    have hcard1 : (Finset.range g.length \ insert v s.visited).card ≤ k := by
      rw [card_sdiff_insert_lt hv hnv]
      omega
    have hlist : ∀ (ws : List Int) (u : St1),
        (Finset.range g.length \ u.visited).card ≤ k →
        dfsFirstList g a ws u = dfsFirstList g b ws u := by
      intro ws
      induction ws with
      | nil => intro u _; rfl
      | cons w ws ihw =>
        intro u hu
        rw [dfsFirstList_cons_eq, dfsFirstList_cons_eq]
        by_cases hc : inRange g.length w ∧ w.toNat ∉ u.visited
        · rw [if_pos hc, if_pos hc]
          have hwn : w.toNat < g.length := by
            have h1 := hc.1.1
            have h2 := hc.1.2
            omega
          have heq : dfsFirstPass g a w.toNat u = dfsFirstPass g b w.toNat u :=
            ih a b w.toNat u hwn hc.2 hu (by omega) (by omega)
          rw [heq]
          refine ihw (dfsFirstPass g b w.toNat u) ?_
          refine le_trans (Finset.card_le_card ?_) hu
          exact Finset.sdiff_subset_sdiff (Finset.Subset.refl _)
            (dfsFirstPass_visited_mono b w.toNat u)
        · rw [if_neg hc, if_neg hc]
          exact ihw u hu
    rw [hlist (adj g v) ⟨insert v s.visited, s.order⟩ hcard1]

theorem dfsSecondPass_fuel_irrel :
    ∀ (k f1 f2 v : Nat) (s : St2), v < t.length → v ∉ s.visited →
      (Finset.range t.length \ s.visited).card ≤ k → k ≤ f1 → k ≤ f2 →
      dfsSecondPass t f1 v s = dfsSecondPass t f2 v s := by
  intro k
  induction k with
  | zero =>
    intro f1 f2 v s hv hnv hcard _ _
    have : 0 < (Finset.range t.length \ s.visited).card :=
      Finset.card_pos.2 ⟨v, Finset.mem_sdiff.2 ⟨Finset.mem_range.2 hv, hnv⟩⟩
    omega
  | succ k ih =>
    intro f1 f2 v s hv hnv hcard hf1 hf2
    obtain ⟨a, rfl⟩ : ∃ a, f1 = a + 1 := ⟨f1 - 1, by omega⟩
    obtain ⟨b, rfl⟩ : ∃ b, f2 = b + 1 := ⟨f2 - 1, by omega⟩
    rw [dfsSecondPass_succ_eq, dfsSecondPass_succ_eq]
    have hcard1 : (Finset.range t.length \ insert v s.visited).card ≤ k := by
      have hmem : v ∈ Finset.range t.length \ s.visited :=
        Finset.mem_sdiff.2 ⟨Finset.mem_range.2 hv, hnv⟩
      rw [Finset.sdiff_insert, Finset.card_erase_of_mem hmem]
      omega
    have hlist : ∀ (ws : List Int) (u : St2),
        (Finset.range t.length \ u.visited).card ≤ k →
        dfsSecondList t a ws u = dfsSecondList t b ws u := by
      intro ws
      induction ws with
      | nil => intro u _; rfl
      | cons w ws ihw =>
        intro u hu
        rw [dfsSecondList_cons_eq, dfsSecondList_cons_eq]
        by_cases hc : inRange t.length w ∧ w.toNat ∉ u.visited
        · rw [if_pos hc, if_pos hc]
          have hwn : w.toNat < t.length := by
            have h1 := hc.1.1
            have h2 := hc.1.2
            omega
          have heq : dfsSecondPass t a w.toNat u = dfsSecondPass t b w.toNat u :=
            ih a b w.toNat u hwn hc.2 hu (by omega) (by omega)
          rw [heq]
          refine ihw (dfsSecondPass t b w.toNat u) ?_
          refine le_trans (Finset.card_le_card ?_) hu
          exact Finset.sdiff_subset_sdiff (Finset.Subset.refl _)
            (dfsSecondPass_visited_mono b w.toNat u)
        · rw [if_neg hc, if_neg hc]
          exact ihw u hu
    rw [hlist (adj t v) ⟨insert v s.visited, s.comp ++ [v]⟩ hcard1]

theorem firstLoop_fuel_irrel {f1 f2 : Nat} (hf1 : g.length ≤ f1) (hf2 : g.length ≤ f2) :
    ∀ (rs : List Nat) (s : St1), (∀ v ∈ rs, v < g.length) →
      firstLoop g f1 rs s = firstLoop g f2 rs s := by
  intro rs
  induction rs with
  | nil => intro s _; rfl
  | cons v rs ihr =>
    intro s hrs
    rw [firstLoop_cons_eq, firstLoop_cons_eq]
    have hv : v < g.length := hrs v (List.mem_cons_self v rs)
    by_cases hvis : v ∉ s.visited
    · rw [if_pos hvis, if_pos hvis]
      have heq : dfsFirstPass g f1 v s = dfsFirstPass g f2 v s := by
        refine dfsFirstPass_fuel_irrel g.length f1 f2 v s hv hvis ?_ hf1 hf2
        exact le_trans (Finset.card_le_card Finset.sdiff_subset)
          (le_of_eq (Finset.card_range _))
      rw [heq]
      exact ihr (dfsFirstPass g f2 v s) (fun u hu => hrs u (List.mem_cons_of_mem v hu))
    · rw [if_neg hvis, if_neg hvis]
      exact ihr s (fun u hu => hrs u (List.mem_cons_of_mem v hu))

theorem secondLoop_fuel_irrel {f1 f2 : Nat} (hf1 : t.length ≤ f1) (hf2 : t.length ≤ f2) :
    ∀ (rs : List Nat) (acc : Finset Nat × List (List Nat)),
      (∀ v ∈ rs, v < t.length) →
      secondPassFuel t f1 rs acc = secondPassFuel t f2 rs acc := by
  intro rs
  induction rs with
  | nil => intro acc _; rfl
  | cons r rs ihr =>
    intro acc hrs
    rw [secondPassFuel_cons_eq, secondPassFuel_cons_eq]
    have hr : r < t.length := hrs r (List.mem_cons_self r rs)
    have hstep : sccStep t f1 acc r = sccStep t f2 acc r := by
      simp only [sccStep]
      by_cases hrv : r ∉ acc.1
      · rw [if_pos hrv, if_pos hrv]
        have heq : dfsSecondPass t f1 r ⟨acc.1, []⟩ = dfsSecondPass t f2 r ⟨acc.1, []⟩ := by
          refine dfsSecondPass_fuel_irrel t.length f1 f2 r ⟨acc.1, []⟩ hr hrv ?_ hf1 hf2
          exact le_trans (Finset.card_le_card Finset.sdiff_subset)
            (le_of_eq (Finset.card_range _))
        rw [heq]
      · rw [if_neg hrv, if_neg hrv]
    rw [hstep]
    exact ihr (sccStep t f2 acc r) (fun u hu => hrs u (List.mem_cons_of_mem r hu))

/-- C8: `findSCCs` terminates on every input graph: the recursion-depth
budget `n` is sufficient (any larger budget computes the same result), and
in each pass every node is visited at most once — the finish order has no
duplicates and no node appears twice across the emitted components. -/
theorem claim_C8 (g : Graph) :
    (∀ fuel, g.length ≤ fuel → findSCCsFuel g fuel = findSCCs g) ∧
    (firstPassSt g).order.Nodup ∧
    (findSCCs g).flatten.Nodup := by
  obtain ⟨_, _, k2, k3, _, _⟩ := findSCCs_main g
  refine ⟨?_, firstPass_order_nodup (le_refl g.length), ?_⟩
  · intro fuel hfuel
    rw [findSCCsFuel, findSCCs]
    by_cases hn : g.length = 0
    · rw [if_pos hn, if_pos hn]
    · rw [if_neg hn, if_neg hn]
      have hfp : firstPassFuel g fuel = firstPassSt g := by
        rw [firstPassSt, firstPassFuel, firstPassFuel]
        exact firstLoop_fuel_irrel hfuel (le_refl g.length) (List.range g.length)
          ⟨∅, []⟩ (fun v hv => List.mem_range.1 hv)
      rw [hfp]
      have hroots : ∀ v ∈ (firstPassSt g).order.reverse, v < (transposeOf g).length := by
        intro v hv
        rw [transposeOf_length]
        exact (firstPass_order_mem (le_refl g.length) v).1 (List.mem_reverse.1 hv)
      have := secondLoop_fuel_irrel (t := transposeOf g)
        (show (transposeOf g).length ≤ fuel by rw [transposeOf_length]; exact hfuel)
        (show (transposeOf g).length ≤ g.length by rw [transposeOf_length])
        ((firstPassSt g).order.reverse) (∅, []) hroots
      rw [this]
  · rw [List.nodup_flatten]
    refine ⟨fun C hC => k2 C hC, ?_⟩
    refine k3.imp ?_
    intro C D h
    intro x hxC hxD
    exact h x hxC hxD

theorem claim_C8_witness :
    findSCCsFuel [[1], [2], [0]] 5 = findSCCs [[1], [2], [0]] :=
  (claim_C8 [[1], [2], [0]]).1 5 (by decide)

end scc
